import Mathlib

/-!
# Shallow embedding of `Vector<T>` (kth_cprog_template_container.hpp)

The class has three data members: the pointer `_vector` to a heap block, the
number `_size` of slots of that block (the capacity) and `visibleSize`, the
number of live elements (the size).

* The heap block is a map from slot index to slot content.  A C++ pointer
  carries no length, and neither does the map: the length of the block is
  what the member `_size` says, exactly as in the source.  The map is total:
  it also answers an access outside the block, which C++ leaves undefined.
* `new T[n]` returns a block whose slots hold whatever default initialisation
  leaves there (the default constructor's value for a class type, an
  indeterminate value for a scalar).  Every operation that allocates takes
  that content as the parameter `fresh`, and the theorems hold for all of it.
* `size_t` is `Nat` wherever a count is bounded by the number of slots of a
  block that is or was allocated, so that no addition or doubling wraps.  The
  one count the caller chooses freely is the size passed to `Vector(size_t)`
  and `Vector(size_t, T)`: for these constructors `init64` runs the doubling
  loop of `init` as a 64-bit `size_t` does, wrapping at `2 ^ 64`, and returns
  nothing when the loop does not end.  It agrees with `init` for every size up
  to `2 ^ 63` (`init64_eq`) and never returns above (`init64_none`).
* `T{}` is `default`, the element comparison `operator==` of `T` is `BEq T`.
* A member function that can throw returns an `Outcome`: what the call
  returned or threw, together with the object after the call.  A member
  function that takes another `Vector` by reference returns `Operands`: the
  object and that argument after the call.
* The blocks carry no address: where the source compares two `_vector`
  pointers (move assignment), the addresses are parameters of the function.
* An iterator is its member `_ptr`, as an offset in slots from the start of
  the block; `iterator` and `const_iterator` have the same member and the same
  operators, and one structure stands for both.
* `for` and `while` loops are recursive functions on a fuel argument; the
  loop condition is tested as in the source, and the fuel passed by the caller
  is an upper bound of the number of iterations.
-/

namespace TemplateVector

/-- The exception type the container throws (`std::out_of_range`). -/
inductive Exn where
  | out_of_range
  deriving DecidableEq, Repr

/-- The data members of `Vector<T>`. -/
structure Vector (T : Type) where
  _vector : Nat → T
  _size : Nat
  visibleSize : Nat

/-- Result of a member function that may throw: the value returned (or the
exception thrown) and the object as the call leaves it. -/
structure Outcome (T : Type) (α : Type) where
  result : Except Exn α
  state : Vector T

/-- The two objects of a call that takes another `Vector` by reference, as the
call leaves them: the object the call ran on (or constructed) and its
argument. -/
structure Operands (T : Type) where
  object : Vector T
  argument : Vector T

/-- The assignment `vec[i] = x` to one slot of a block. -/
def store {T : Type} (vec : Nat → T) (i : Nat) (x : T) : Nat → T :=
  fun j => if j = i then x else vec j

variable {T : Type}

/-- `size_t Vector<T>::capacity() const`. -/
def capacity (self : Vector T) : Nat := self._size

/-- `size_t Vector<T>::size() const`. -/
def size (self : Vector T) : Nat := self.visibleSize

/-- `T Vector<T>::get(size_t i) const`: unchecked read of slot `i`. -/
def get (self : Vector T) (i : Nat) : T := self._vector i

/-- `void Vector<T>::clear()`. -/
def clear (self : Vector T) : Vector T := { self with visibleSize := 0 }

/-- The loop of `reset(T)`: `for (i = 0; i < visibleSize; i++) _vector[i] = initValue`,
entered at `i`. -/
def resetLoop (initValue : T) (visibleSize : Nat) : Nat → Nat → (Nat → T) → (Nat → T)
  | 0, _, vec => vec
  | fuel + 1, i, vec =>
    if i < visibleSize then
      resetLoop initValue visibleSize fuel (i + 1) (store vec i initValue)
    else vec

/-- `void Vector<T>::reset(T initValue)`. -/
def reset (self : Vector T) (initValue : T) : Vector T :=
  { self with
    _vector := resetLoop initValue self.visibleSize self.visibleSize 0 self._vector }

/-- `void Vector<T>::reset()`, which is `reset(T{})`. -/
def reset0 [Inhabited T] (self : Vector T) : Vector T := reset self default

/-- The loop of `init(size_t, T)`: `while (size < desiredSize) size *= 2`, for a
`desiredSize` of at most `2 ^ 63` slots, for which no doubling wraps on a
64-bit `size_t` (`initLoop64_eq`). -/
def initLoop (desiredSize : Nat) : Nat → Nat → Nat
  | 0, size => size
  | fuel + 1, size =>
    if size < desiredSize then initLoop desiredSize fuel (size * 2) else size

/-- The loop of `init(size_t, T)` as a 64-bit `size_t` runs it, for every
`desiredSize`: `size *= 2` wraps at `2 ^ 64`.  The result is `none` when the
loop has not ended within `fuel` tests of its condition. -/
def initLoop64 (desiredSize : Nat) : Nat → Nat → Option Nat
  | 0, _ => none
  | fuel + 1, size =>
    if size < desiredSize then initLoop64 desiredSize fuel (size * 2 % 2 ^ 64)
    else some size

/-- `void Vector<T>::init(size_t desiredSize, T initValue)`, for a `desiredSize`
of at most `2 ^ 63` (see `initLoop`; `init64` is the function for every
`desiredSize`).  It overwrites all three members, so it does not read the
object; `fresh` is the content of the block `new T[size]` returns. -/
def init (fresh : Nat → T) (desiredSize : Nat) (initValue : T) : Vector T :=
  let size := initLoop desiredSize desiredSize 1
  let size := if desiredSize = 0 then 0 else size
  reset { _vector := fresh, _size := size, visibleSize := desiredSize } initValue

/-- `void Vector<T>::init(size_t desiredSize)`, which is `init(desiredSize, T{})`. -/
def init1 [Inhabited T] (fresh : Nat → T) (desiredSize : Nat) : Vector T :=
  init fresh desiredSize default

/-- `void Vector<T>::init()`, which is `init(0)`. -/
def init0 [Inhabited T] (fresh : Nat → T) : Vector T := init1 fresh 0

/-- `Vector<T>::Vector()`. -/
def ctorDefault [Inhabited T] (fresh : Nat → T) : Vector T := init fresh 0 default

/-- `Vector<T>::Vector(size_t size)`, for a size of at most `2 ^ 63`: the object the
constructor leaves whenever it returns (`init64_some`). -/
def ctorSize [Inhabited T] (fresh : Nat → T) (size : Nat) : Vector T :=
  init fresh size default

/-- `Vector<T>::Vector(size_t size, T value)`, for a size of at most `2 ^ 63`: the object the
constructor leaves whenever it returns (`init64_some`). -/
def ctorFill (fresh : Nat → T) (size : Nat) (value : T) : Vector T :=
  init fresh size value

/-- `void Vector<T>::init(size_t desiredSize, T initValue)` with the loop as a
64-bit `size_t` runs it: `none` when the loop has not ended within `fuel`
tests, otherwise the object `init` leaves. -/
def init64 (fuel : Nat) (fresh : Nat → T) (desiredSize : Nat) (initValue : T) :
    Option (Vector T) :=
  match initLoop64 desiredSize fuel 1 with
  | none => none
  | some size =>
    let size := if desiredSize = 0 then 0 else size
    some (reset { _vector := fresh, _size := size, visibleSize := desiredSize } initValue)

/-- `Vector<T>::Vector()` on a 64-bit `size_t`. -/
def ctorDefault64 [Inhabited T] (fuel : Nat) (fresh : Nat → T) : Option (Vector T) :=
  init64 fuel fresh 0 default

/-- `Vector<T>::Vector(size_t size)` on a 64-bit `size_t`, for every size the
caller may pass. -/
def ctorSize64 [Inhabited T] (fuel : Nat) (fresh : Nat → T) (size : Nat) : Option (Vector T) :=
  init64 fuel fresh size default

/-- `Vector<T>::Vector(size_t size, T value)` on a 64-bit `size_t`, for every
size the caller may pass. -/
def ctorFill64 (fuel : Nat) (fresh : Nat → T) (size : Nat) (value : T) : Option (Vector T) :=
  init64 fuel fresh size value

/-- The copying loop `for (i = 0; i < n; i++) _vector[i] = src[i]` of `copy`
(with `n = src.visibleSize`) and of `resize` (with `n = oldSize`), entered
at `i`. -/
def copyLoop (src : Nat → T) (n : Nat) : Nat → Nat → (Nat → T) → (Nat → T)
  | 0, _, vec => vec
  | fuel + 1, i, vec =>
    if i < n then copyLoop src n fuel (i + 1) (store vec i (src i)) else vec

/-- `void Vector<T>::copy(const Vector &src)`. -/
def copy (self : Vector T) (src : Vector T) : Vector T :=
  { self with
    _vector := copyLoop src._vector src.visibleSize src.visibleSize 0 self._vector }

/-- `void Vector<T>::resize(size_t sz)`. -/
def resize [Inhabited T] (fresh : Nat → T) (self : Vector T) (sz : Nat) : Vector T :=
  if sz > self._size then
    let temp := self._vector
    let oldSize := self.visibleSize
    let self1 := init1 fresh sz
    { self1 with _vector := copyLoop temp oldSize oldSize 0 self1._vector }
  else
    { self with visibleSize := sz }

/-- `void Vector<T>::push_back(T value)`. -/
def push_back [Inhabited T] (fresh : Nat → T) (self : Vector T) (value : T) : Vector T :=
  let self1 := resize fresh self (self.visibleSize + 1)
  { self1 with _vector := store self1._vector (self1.visibleSize - 1) value }

/-- The shifting loop of `insert`:
`for (i = visibleSize - 1; i > index; i--) _vector[i] = _vector[i - 1]`,
entered at `i`. -/
def insertLoop (index : Nat) : Nat → Nat → (Nat → T) → (Nat → T)
  | 0, _, vec => vec
  | fuel + 1, i, vec =>
    if i > index then insertLoop index fuel (i - 1) (store vec i (vec (i - 1))) else vec

/-- `void Vector<T>::insert(size_t index, T value)`. -/
def insert [Inhabited T] (fresh : Nat → T) (self : Vector T) (index : Nat) (value : T) :
    Outcome T Unit :=
  if index > self.visibleSize ∨ index < 0 then
    ⟨.error .out_of_range, self⟩
  else if index = self.visibleSize then
    ⟨.ok (), push_back fresh self value⟩
  else
    let self1 := resize fresh self (self.visibleSize + 1)
    let tmp := self1._vector index
    let vec1 := store self1._vector index value
    let vec2 := insertLoop index self1.visibleSize (self1.visibleSize - 1) vec1
    ⟨.ok (), { self1 with _vector := store vec2 (index + 1) tmp }⟩

/-- The shifting loop of `erase`:
`for (i = index; i < visibleSize - 1; i++) _vector[i] = _vector[i + 1]`,
entered at `i`. -/
def eraseLoop (visibleSize : Nat) : Nat → Nat → (Nat → T) → (Nat → T)
  | 0, _, vec => vec
  | fuel + 1, i, vec =>
    if i < visibleSize - 1 then
      eraseLoop visibleSize fuel (i + 1) (store vec i (vec (i + 1)))
    else vec

/-- `void Vector<T>::erase(size_t index)`. -/
def erase [Inhabited T] (fresh : Nat → T) (self : Vector T) (index : Nat) : Outcome T Unit :=
  if index ≥ self.visibleSize then
    ⟨.error .out_of_range, self⟩
  else
    let vec1 := eraseLoop self.visibleSize self.visibleSize index self._vector
    let self1 : Vector T := { self with _vector := vec1 }
    ⟨.ok (), resize fresh self1 (self1.visibleSize - 1)⟩

/-- `const T& Vector<T>::operator[](size_t i) const`. -/
def operatorIndexConst (self : Vector T) (i : Nat) : Except Exn T :=
  if i ≥ self.visibleSize then .error .out_of_range else .ok (self._vector i)

/-- `T& Vector<T>::operator[](size_t i)`: the reference returned is to slot `i`,
whose content is the value of the outcome. -/
def operatorIndex (self : Vector T) (i : Nat) : Outcome T T :=
  if i ≥ self.visibleSize then ⟨.error .out_of_range, self⟩ else ⟨.ok (self._vector i), self⟩

/-- The loop of `operator==`, entered at `i`: it returns `false` at the first
slot whose elements do not compare equal, `true` when it runs to the end. -/
def eqLoop [BEq T] (vec other : Nat → T) (visibleSize : Nat) : Nat → Nat → Bool
  | 0, _ => true
  | fuel + 1, i =>
    if i < visibleSize then
      if !(vec i == other i) then false else eqLoop vec other visibleSize fuel (i + 1)
    else true

/-- `bool Vector<T>::operator==(const Vector &v) const`. -/
def operatorEq [BEq T] (self v : Vector T) : Bool :=
  if self.visibleSize = v.visibleSize then
    eqLoop self._vector v._vector self.visibleSize self.visibleSize 0
  else false

/-- `bool Vector<T>::operator!=(const Vector &v) const`. -/
def operatorNe [BEq T] (self v : Vector T) : Bool := !(operatorEq self v)

/-- `Vector<T>::iterator` and `Vector<T>::const_iterator`: the member `_ptr`, as
the offset in slots from the start of the block it points into. -/
structure iterator where
  _ptr : Int
  deriving DecidableEq, Repr

/-- `iterator Vector<T>::begin()`: `iterator(_vector)`. -/
def Vector.begin (_self : Vector T) : iterator := ⟨0⟩

/-- `iterator Vector<T>::end()`: `iterator(_vector + visibleSize)`. -/
def Vector.end (self : Vector T) : iterator := ⟨(self.visibleSize : Int)⟩

/-- `bool iterator::operator!=(const iterator& it) const`. -/
def iterator.ne (self it : iterator) : Bool := decide (self._ptr ≠ it._ptr)

/-- `iterator iterator::operator++()`. -/
def iterator.incr (self : iterator) : iterator := ⟨self._ptr + 1⟩

/-- `T& iterator::operator*()`, for an iterator into the block of `v`. -/
def iterator.deref (self : iterator) (v : Vector T) : T := v._vector self._ptr.toNat

/-- The loop of `find`: `while (it != end() && !(*it == sought)) ++it`. -/
def findLoop [BEq T] (self : Vector T) (sought : T) : Nat → iterator → iterator
  | 0, it => it
  | fuel + 1, it =>
    if it.ne self.end && !(it.deref self == sought) then
      findLoop self sought fuel it.incr
    else it

/-- `const_iterator Vector<T>::find(T const &sought) const`. -/
def findConst [BEq T] (self : Vector T) (sought : T) : iterator :=
  findLoop self sought self.visibleSize self.begin

/-- `iterator Vector<T>::find(T const &sought)`: the non-const overload, with
the object as the call leaves it. -/
def find [BEq T] (self : Vector T) (sought : T) : iterator × Vector T :=
  (findLoop self sought self.visibleSize self.begin, self)

/-- `Vector<T>::Vector(Vector const& src)`. -/
def ctorCopy [Inhabited T] (fresh : Nat → T) (src : Vector T) : Operands T :=
  ⟨copy (init1 fresh src.visibleSize) src, src⟩

/-- `Vector<T>& Vector<T>::operator=(const Vector<T> &v)`, for an argument `v`
that is another object than `*this`. -/
def operatorAssign [Inhabited T] [BEq T] (fresh : Nat → T) (self v : Vector T) : Operands T :=
  if !(operatorEq v self) then
    let self1 :=
      if v.visibleSize > self._size then init1 fresh v.visibleSize
      else reset0 { self with visibleSize := v.visibleSize }
    ⟨copy self1 v, v⟩
  else ⟨self, v⟩

/-- `Vector<T>& Vector<T>::operator=(const Vector<T> &v)` for the self assignment
`a = a`: the argument `v` is the object itself, so every read of `v` reads the
members of `*this` as they are at that point, and `copy(v)` copies the block
onto itself. -/
def operatorAssignSelf [Inhabited T] [BEq T] (fresh : Nat → T) (self : Vector T) : Vector T :=
  if !(operatorEq self self) then
    let self1 :=
      if self.visibleSize > self._size then init1 fresh self.visibleSize
      else reset0 { self with visibleSize := self.visibleSize }
    copy self1 self1
  else self

/-- `void Vector<T>::swap(Vector &v)`: the object and `v` exchange their three
members. -/
def swap (self v : Vector T) : Operands T :=
  let temp_vecptr := v._vector
  let temp_size := v._size
  let temp_vissize := v.visibleSize
  let v1 : Vector T :=
    { _vector := self._vector, _size := self._size, visibleSize := self.visibleSize }
  ⟨{ _vector := temp_vecptr, _size := temp_size, visibleSize := temp_vissize }, v1⟩

/-- `Vector<T>::Vector(Vector&& oldVec)`: `init()`, then the swap unless
`oldVec == *this`. -/
def ctorMove [Inhabited T] [BEq T] (fresh : Nat → T) (oldVec : Vector T) : Operands T :=
  let self := init0 fresh
  if !(operatorEq oldVec self) then swap self oldVec else ⟨self, oldVec⟩

/-- `Vector<T>& Vector<T>::operator=(Vector<T>&& v)`.  The guard compares the
two `_vector` pointers; the blocks of the model carry no address, so the
addresses the two pointers hold are the parameters `selfPtr` and `vPtr`. -/
def operatorMoveAssign [Inhabited T] (fresh : Nat → T) (selfPtr vPtr : Nat)
    (self v : Vector T) : Operands T :=
  if vPtr ≠ selfPtr then
    let self1 := init0 fresh
    swap self1 v
  else ⟨self, v⟩

/-- The loop of the initializer-list constructor:
`for (T value : ilist) _vector[i++] = value`, entered at `i`. -/
def ilistLoop : List T → Nat → (Nat → T) → (Nat → T)
  | [], _, vec => vec
  | value :: rest, i, vec => ilistLoop rest (i + 1) (store vec i value)

/-- `Vector<T>::Vector(initializer_list<T> ilist)`. -/
def ctorList [Inhabited T] (fresh : Nat → T) (ilist : List T) : Vector T :=
  let self := init1 fresh ilist.length
  { self with _vector := ilistLoop ilist 0 self._vector }

/-- `iterator iterator::operator+(size_t i)` (and the same operator of
`const_iterator`): `_ptr += i; return (*this);`.  The pair is the iterator
returned, a copy of `*this` taken after the addition, and the receiver as the
call leaves it. -/
def iterator.add (self : iterator) (i : Nat) : iterator × iterator :=
  let self1 : iterator := ⟨self._ptr + (i : Int)⟩
  (self1, self1)

/-- `iterator iterator::operator-(size_t i)` (and the same operator of
`const_iterator`): `_ptr -= i; return (*this);`, as a pair like
`iterator.add`. -/
def iterator.sub (self : iterator) (i : Nat) : iterator × iterator :=
  let self1 : iterator := ⟨self._ptr - (i : Int)⟩
  (self1, self1)

/-- `ptrdiff_t iterator::operator-(const iterator& it)`:
`std::distance(it._ptr, _ptr)`. -/
def iterator.distance (self it : iterator) : Int := self._ptr - it._ptr

/-- The state after `n` calls of `push_back` on a default-constructed array, the
`k`-th call (from 0) with the value `values k`. -/
def push_backs [Inhabited T] (fresh : Nat → T) (values : Nat → T) : Nat → Vector T
  | 0 => ctorDefault fresh
  | n + 1 => push_back fresh (push_backs fresh values n) (values n)

/-- The states of an array that the constructors and then any sequence of
`push_back`, `insert`, `erase`, `clear`, `reset`, copy assignment and move
assignment produce, for the object of the call and, where the call takes
another array, for that array too. -/
inductive Reachable [Inhabited T] [BEq T] : Vector T → Prop
  | ctorDefault (fresh : Nat → T) : Reachable (ctorDefault fresh)
  | ctorSize (fresh : Nat → T) (n : Nat) : Reachable (ctorSize fresh n)
  | ctorFill (fresh : Nat → T) (n : Nat) (v : T) : Reachable (ctorFill fresh n v)
  | ctorList (fresh : Nat → T) (ilist : List T) : Reachable (ctorList fresh ilist)
  | ctorCopy (fresh : Nat → T) (src : Vector T) :
      Reachable src → Reachable (ctorCopy fresh src).object
  | ctorMove (fresh : Nat → T) (src : Vector T) :
      Reachable src → Reachable (ctorMove fresh src).object
  | ctorMoveSource (fresh : Nat → T) (src : Vector T) :
      Reachable src → Reachable (ctorMove fresh src).argument
  | push_back (fresh : Nat → T) (a : Vector T) (v : T) :
      Reachable a → Reachable (push_back fresh a v)
  | insert (fresh : Nat → T) (a : Vector T) (i : Nat) (v : T) :
      Reachable a → Reachable (insert fresh a i v).state
  | erase (fresh : Nat → T) (a : Vector T) (i : Nat) :
      Reachable a → Reachable (erase fresh a i).state
  | clear (a : Vector T) : Reachable a → Reachable (clear a)
  | reset (a : Vector T) : Reachable a → Reachable (reset0 a)
  | assign (fresh : Nat → T) (a b : Vector T) :
      Reachable a → Reachable b → Reachable (operatorAssign fresh a b).object
  | assignSelf (fresh : Nat → T) (a : Vector T) :
      Reachable a → Reachable (operatorAssignSelf fresh a)
  | moveAssign (fresh : Nat → T) (p q : Nat) (a b : Vector T) :
      Reachable a → Reachable b → Reachable (operatorMoveAssign fresh p q a b).object
  | moveAssignSource (fresh : Nat → T) (p q : Nat) (a b : Vector T) :
      Reachable a → Reachable b → Reachable (operatorMoveAssign fresh p q a b).argument

/-- The invariant of the data members: the size is at most the capacity, and
the capacity is zero or a power of two. -/
def Inv (a : Vector T) : Prop :=
  a.visibleSize ≤ a._size ∧ (a._size = 0 ∨ ∃ k, a._size = 2 ^ k)

/-- The capacity the constructors are specified to give to an array of `n > 0`
elements: `c` is a power of two, `c ≥ n`, and no power of two that is at least
`n` is smaller than `c`. -/
def SmallestPowerOfTwoGe (c n : Nat) : Prop :=
  (∃ k, c = 2 ^ k) ∧ n ≤ c ∧ ∀ m, n ≤ 2 ^ m → c ≤ 2 ^ m

/-! ## Concrete objects on which the operations are evaluated -/

/-- Content of a newly allocated block in the examples. -/
def exFresh : Nat → Nat := fun _ => 77

/-- An object with spare capacity and stale slots: elements `[1, 2]` in a block
of four slots whose last two slots still hold `99`. -/
def exSpare : Vector Nat := ⟨fun j => if j < 2 then j + 1 else 99, 4, 2⟩

/-- An object whose block is full: elements `[1, 2, 3, 4]`, capacity 4. -/
def exFull : Vector Nat := ⟨fun j => j + 1, 4, 4⟩

/-- An element type whose `operator==` compares the key and not the payload; the
comparison is reflexive and symmetric. -/
structure Keyed where
  key : Nat
  payload : Nat
  deriving DecidableEq, Repr

instance : BEq Keyed := ⟨fun x y => x.key == y.key⟩

instance : Inhabited Keyed := ⟨⟨0, 0⟩⟩

/-- The array `[(key 1, payload 10)]`, capacity 1. -/
def exKeyedA : Vector Keyed := ⟨fun _ => ⟨1, 10⟩, 1, 1⟩

/-- The array `[(key 1, payload 20)]`, capacity 1. -/
def exKeyedB : Vector Keyed := ⟨fun _ => ⟨1, 20⟩, 1, 1⟩

/-- An element type like a floating-point number: `nan` does not compare equal
to itself. -/
inductive Num where
  | nan
  | val (n : Nat)
  deriving DecidableEq, Repr

instance : BEq Num :=
  ⟨fun x y =>
    match x, y with
    | .val a, .val b => a == b
    | _, _ => false⟩

instance : Inhabited Num := ⟨.val 0⟩

/-- The array `[nan, 7]`, capacity 2. -/
def exNan : Vector Num := ⟨fun j => if j = 0 then .nan else .val 7, 2, 2⟩

/-! ## The loops -/

theorem resetLoop_apply (x : T) (n : Nat) (fuel i : Nat) (vec : Nat → T) (j : Nat)
    (hfuel : n - i ≤ fuel) :
    resetLoop x n fuel i vec j = if i ≤ j ∧ j < n then x else vec j := by
  induction fuel generalizing i vec with
  | zero =>
    have hni : ¬ (i ≤ j ∧ j < n) := by omega
    simp [resetLoop, hni]
  | succ fuel ih =>
    unfold resetLoop
    by_cases hlt : i < n
    · rw [if_pos hlt, ih (i + 1) _ (by omega)]
      unfold store
      by_cases hj : j = i
      · subst hj
        have h1 : ¬ (j + 1 ≤ j ∧ j < n) := by omega
        have h2 : j ≤ j ∧ j < n := ⟨le_refl j, hlt⟩
        simp [h1, h2]
      · by_cases hc : i + 1 ≤ j ∧ j < n
        · have h2 : i ≤ j ∧ j < n := by omega
          simp [hc, h2]
        · have h2 : ¬ (i ≤ j ∧ j < n) := by omega
          simp [hc, h2, hj]
    · have h2 : ¬ (i ≤ j ∧ j < n) := by omega
      rw [if_neg hlt, if_neg h2]

theorem copyLoop_apply (src : Nat → T) (n : Nat) (fuel i : Nat) (vec : Nat → T) (j : Nat)
    (hfuel : n - i ≤ fuel) :
    copyLoop src n fuel i vec j = if i ≤ j ∧ j < n then src j else vec j := by
  induction fuel generalizing i vec with
  | zero =>
    have hni : ¬ (i ≤ j ∧ j < n) := by omega
    simp [copyLoop, hni]
  | succ fuel ih =>
    unfold copyLoop
    by_cases hlt : i < n
    · rw [if_pos hlt, ih (i + 1) _ (by omega)]
      unfold store
      by_cases hj : j = i
      · subst hj
        have h1 : ¬ (j + 1 ≤ j ∧ j < n) := by omega
        have h2 : j ≤ j ∧ j < n := ⟨le_refl j, hlt⟩
        simp [h1, h2]
      · by_cases hc : i + 1 ≤ j ∧ j < n
        · have h2 : i ≤ j ∧ j < n := by omega
          simp [hc, h2]
        · have h2 : ¬ (i ≤ j ∧ j < n) := by omega
          simp [hc, h2, hj]
    · have h2 : ¬ (i ≤ j ∧ j < n) := by omega
      rw [if_neg hlt, if_neg h2]

theorem insertLoop_apply (index : Nat) (fuel i : Nat) (vec : Nat → T) (j : Nat)
    (hfuel : i - index ≤ fuel) :
    insertLoop index fuel i vec j = if index < j ∧ j ≤ i then vec (j - 1) else vec j := by
  induction fuel generalizing i vec with
  | zero =>
    have hni : ¬ (index < j ∧ j ≤ i) := by omega
    simp [insertLoop, hni]
  | succ fuel ih =>
    unfold insertLoop
    by_cases hgt : i > index
    · rw [if_pos hgt, ih (i - 1) _ (by omega)]
      unfold store
      by_cases hj : j = i
      · subst hj
        have h1 : ¬ (index < j ∧ j ≤ j - 1) := by omega
        have h2 : index < j ∧ j ≤ j := ⟨hgt, le_refl j⟩
        simp [h1, h2]
      · by_cases hc : index < j ∧ j ≤ i - 1
        · have h2 : index < j ∧ j ≤ i := by omega
          have h3 : j - 1 ≠ i := by omega
          simp [hc, h2, h3]
        · have h2 : ¬ (index < j ∧ j ≤ i) := by omega
          simp [hc, h2, hj]
    · have h2 : ¬ (index < j ∧ j ≤ i) := by omega
      rw [if_neg hgt, if_neg h2]

theorem eraseLoop_apply (n : Nat) (fuel i : Nat) (vec : Nat → T) (j : Nat)
    (hfuel : n - 1 - i ≤ fuel) :
    eraseLoop n fuel i vec j = if i ≤ j ∧ j < n - 1 then vec (j + 1) else vec j := by
  induction fuel generalizing i vec with
  | zero =>
    have hni : ¬ (i ≤ j ∧ j < n - 1) := by omega
    simp [eraseLoop, hni]
  | succ fuel ih =>
    unfold eraseLoop
    by_cases hlt : i < n - 1
    · rw [if_pos hlt, ih (i + 1) _ (by omega)]
      unfold store
      by_cases hj : j = i
      · subst hj
        have h1 : ¬ (j + 1 ≤ j ∧ j < n - 1) := by omega
        have h2 : j ≤ j ∧ j < n - 1 := ⟨le_refl j, hlt⟩
        simp [h1, h2]
      · by_cases hc : i + 1 ≤ j ∧ j < n - 1
        · have h2 : i ≤ j ∧ j < n - 1 := by omega
          have h3 : j + 1 ≠ i := by omega
          simp [hc, h2, h3]
        · have h2 : ¬ (i ≤ j ∧ j < n - 1) := by omega
          simp [hc, h2, hj]
    · have h2 : ¬ (i ≤ j ∧ j < n - 1) := by omega
      rw [if_neg hlt, if_neg h2]

/-- Invariant of the doubling loop: started at a power of two that is at most
every power of two above `n`, it ends at such a power of two that is at
least `n`, provided the fuel covers the distance to `n`. -/
theorem initLoop_pow (n : Nat) (fuel k : Nat) (hfuel : n ≤ fuel + 2 ^ k)
    (hmin : ∀ m, n ≤ 2 ^ m → 2 ^ k ≤ 2 ^ m) :
    ∃ k', initLoop n fuel (2 ^ k) = 2 ^ k' ∧ n ≤ 2 ^ k' ∧ ∀ m, n ≤ 2 ^ m → 2 ^ k' ≤ 2 ^ m := by
  induction fuel generalizing k with
  | zero => exact ⟨k, rfl, by simpa using hfuel, hmin⟩
  | succ fuel ih =>
    unfold initLoop
    by_cases hlt : 2 ^ k < n
    · rw [if_pos hlt]
      have hpos : 0 < 2 ^ k := Nat.two_pow_pos _
      have hk : 2 ^ k * 2 = 2 ^ (k + 1) := (pow_succ 2 k).symm
      rw [hk]
      apply ih (k + 1)
      · rw [← hk]; omega
      · intro m hm
        have h1 : 2 ^ k < 2 ^ m := lt_of_lt_of_le hlt hm
        have h2 : k < m := (Nat.pow_lt_pow_iff_right (by decide)).mp h1
        exact Nat.pow_le_pow_right (by decide) h2
    · rw [if_neg hlt]
      exact ⟨k, rfl, by omega, hmin⟩

/-- The capacity `init` computes for a non-zero size is the smallest power of
two that is at least that size. -/
theorem initLoop_spec (n : Nat) :
    ∃ k, initLoop n n 1 = 2 ^ k ∧ n ≤ 2 ^ k ∧ ∀ m, n ≤ 2 ^ m → 2 ^ k ≤ 2 ^ m := by
  have h := initLoop_pow n n 0 (by omega) (fun m _ => Nat.two_pow_pos _)
  simpa using h

/-- The fuel `init` passes is enough: any larger fuel gives the same capacity,
so the loop ends by its own test. -/
theorem initLoop_fuel (n : Nat) (fuel size : Nat) (hfuel : n ≤ fuel + size) (hpos : 0 < size)
    (extra : Nat) :
    initLoop n (fuel + extra) size = initLoop n fuel size := by
  induction fuel generalizing size with
  | zero =>
    have hge : ¬ size < n := by omega
    cases extra with
    | zero => rfl
    | succ e => simp [initLoop, hge]
  | succ fuel ih =>
    have : fuel + 1 + extra = (fuel + extra) + 1 := by omega
    rw [this]
    unfold initLoop
    by_cases hlt : size < n
    · rw [if_pos hlt, if_pos hlt]
      exact ih (size * 2) (by omega) (by omega)
    · rw [if_neg hlt, if_neg hlt]

/-- On a 64-bit `size_t` the doubling never wraps for a size of at most `2 ^ 63`
slots: with fuel for the distance to that size, the loop ends and computes
what `initLoop` does. -/
theorem initLoop64_eq (n fuel size : Nat) (hn : n ≤ 2 ^ 63) (hfuel : n ≤ fuel + size)
    (hpos : 0 < size) : initLoop64 n (fuel + 1) size = some (initLoop n fuel size) := by
  induction fuel generalizing size with
  | zero =>
    have hge : ¬ size < n := by omega
    simp [initLoop64, initLoop, hge]
  | succ fuel ih =>
    unfold initLoop64 initLoop
    by_cases hlt : size < n
    · have hmod : size * 2 % 2 ^ 64 = size * 2 := Nat.mod_eq_of_lt (by omega)
      rw [if_pos hlt, if_pos hlt, hmod]
      exact ih (size * 2) (by omega) (by omega)
    · rw [if_neg hlt, if_neg hlt]

/-- More fuel does not change what the 64-bit loop returns. -/
theorem initLoop64_mono (n fuel size c : Nat) (extra : Nat)
    (h : initLoop64 n fuel size = some c) : initLoop64 n (fuel + extra) size = some c := by
  induction fuel generalizing size with
  | zero => simp [initLoop64] at h
  | succ fuel ih =>
    have hf : fuel + 1 + extra = (fuel + extra) + 1 := by omega
    rw [hf]
    unfold initLoop64 at h ⊢
    by_cases hlt : size < n
    · rw [if_pos hlt] at h ⊢
      exact ih _ h
    · rw [if_neg hlt] at h ⊢
      exact h

/-- On a 64-bit `size_t` the loop never ends for a size above `2 ^ 63`: a power
of two up to `2 ^ 63` is below the size, and the double of `2 ^ 63` wraps
to 0, which stays 0. -/
theorem initLoop64_none (n fuel size : Nat) (hn : 2 ^ 63 < n)
    (hsize : size = 0 ∨ ∃ k, k ≤ 63 ∧ size = 2 ^ k) : initLoop64 n fuel size = none := by
  induction fuel generalizing size with
  | zero => rfl
  | succ fuel ih =>
    have hle : size ≤ 2 ^ 63 := by
      rcases hsize with h0 | ⟨k, hk, hs⟩
      · omega
      · rw [hs]
        exact Nat.pow_le_pow_right (by decide) hk
    have hlt : size < n := by omega
    unfold initLoop64
    rw [if_pos hlt]
    apply ih
    rcases hsize with h0 | ⟨k, hk, hs⟩
    · left
      rw [h0]
      decide
    · by_cases hk63 : k = 63
      · left
        rw [hs, hk63]
        decide
      · right
        refine ⟨k + 1, by omega, ?_⟩
        have hlt2 : 2 ^ (k + 1) < 2 ^ 64 := Nat.pow_lt_pow_right (by decide) (by omega)
        rw [hs, ← pow_succ]
        exact Nat.mod_eq_of_lt hlt2

/-- For a size of at most `2 ^ 63` and fuel above the size, `init` on a 64-bit
`size_t` returns, with the object `init` describes. -/
theorem init64_eq (fuel : Nat) (fresh : Nat → T) (n : Nat) (x : T) (hn : n ≤ 2 ^ 63)
    (hfuel : n < fuel) : init64 fuel fresh n x = some (init fresh n x) := by
  obtain ⟨f, rfl⟩ : ∃ f, fuel = f + 1 := ⟨fuel - 1, by omega⟩
  have h1 := initLoop64_eq n f 1 hn (by omega) (by decide)
  have h2 : initLoop n f 1 = initLoop n n 1 := by
    have := initLoop_fuel n n 1 (by omega) (by decide) (f - n)
    rw [← this]
    congr 1
    omega
  unfold init64
  rw [h1, h2]
  rfl

/-- For a size above `2 ^ 63`, `init` on a 64-bit `size_t` does not return,
whatever the fuel. -/
theorem init64_none (fuel : Nat) (fresh : Nat → T) (n : Nat) (x : T) (hn : 2 ^ 63 < n) :
    init64 fuel fresh n x = none := by
  unfold init64
  rw [initLoop64_none n fuel 1 hn (Or.inr ⟨0, by decide, rfl⟩)]

/-- Whenever `init` on a 64-bit `size_t` returns, the size is at most `2 ^ 63`
and the object is the one `init` describes. -/
theorem init64_some (fuel : Nat) (fresh : Nat → T) (n : Nat) (x : T) (a : Vector T)
    (h : init64 fuel fresh n x = some a) : n ≤ 2 ^ 63 ∧ a = init fresh n x := by
  have hn : n ≤ 2 ^ 63 := by
    by_contra hc
    rw [init64_none fuel fresh n x (by omega)] at h
    cases h
  refine ⟨hn, ?_⟩
  cases hl : initLoop64 n fuel 1 with
  | none =>
    unfold init64 at h
    rw [hl] at h
    cases h
  | some c =>
    have h1 := initLoop64_mono n fuel 1 c (n + 1) hl
    have h2 : init64 (fuel + (n + 1)) fresh n x = some a := by
      unfold init64 at h ⊢
      rw [hl] at h
      rw [h1]
      exact h
    rw [init64_eq (fuel + (n + 1)) fresh n x hn (by omega)] at h2
    exact (Option.some.inj h2).symm

/-! ## Members after `init` and `resize` -/

theorem init_visibleSize (fresh : Nat → T) (n : Nat) (x : T) :
    (init fresh n x).visibleSize = n := rfl

theorem init_size (fresh : Nat → T) (n : Nat) (x : T) :
    (init fresh n x)._size = if n = 0 then 0 else initLoop n n 1 := rfl

theorem init_vector (fresh : Nat → T) (n : Nat) (x : T) (j : Nat) :
    (init fresh n x)._vector j = if j < n then x else fresh j := by
  simp [init, reset, resetLoop_apply]

/-- A block `init` allocates has room for the size asked for. -/
theorem init_size_ge (fresh : Nat → T) (n : Nat) (x : T) : n ≤ (init fresh n x)._size := by
  rw [init_size]
  by_cases h : n = 0
  · simp [h]
  · rw [if_neg h]
    obtain ⟨k, hk, hle, _⟩ := initLoop_spec n
    omega

theorem resize_visibleSize [Inhabited T] (fresh : Nat → T) (a : Vector T) (sz : Nat) :
    (resize fresh a sz).visibleSize = sz := by
  unfold resize
  split <;> rfl

theorem resize_size [Inhabited T] (fresh : Nat → T) (a : Vector T) (sz : Nat) :
    (resize fresh a sz)._size = if sz > a._size then (init1 fresh sz)._size else a._size := by
  unfold resize
  split <;> rfl

/-- Slots below the old size keep their content through `resize`, on both of
its paths. -/
theorem resize_vector_old [Inhabited T] (fresh : Nat → T) (a : Vector T) (sz : Nat) (j : Nat)
    (hj : j < a.visibleSize) : (resize fresh a sz)._vector j = a._vector j := by
  unfold resize
  split
  · simp [copyLoop_apply, hj]
  · rfl

/-- The object keeps room for its elements through `resize`. -/
theorem resize_size_ge [Inhabited T] (fresh : Nat → T) (a : Vector T) (sz : Nat) :
    sz ≤ (resize fresh a sz)._size := by
  rw [resize_size]
  split
  · exact init_size_ge fresh sz default
  · omega

/-! ## insert, push_back, erase -/

theorem store_apply (vec : Nat → T) (i : Nat) (x : T) (j : Nat) :
    store vec i x j = if j = i then x else vec j := rfl

/-- Effect of `insert` at an index below the size: no exception, the size grows
by one, `v` sits at `i`, the elements below `i` stay and the others move up by
one slot. -/
theorem insert_below_size [Inhabited T] (fresh : Nat → T) (a : Vector T) (i : Nat) (v : T)
    (hi : i < size a) :
    (insert fresh a i v).result = .ok () ∧
    size (insert fresh a i v).state = size a + 1 ∧
    get (insert fresh a i v).state i = v ∧
    (∀ j, j < i → get (insert fresh a i v).state j = get a j) ∧
    (∀ j, i ≤ j → j < size a → get (insert fresh a i v).state (j + 1) = get a j) := by
  unfold size at hi
  have h1 : ¬ (i > a.visibleSize ∨ i < 0) := by omega
  have h2 : ¬ i = a.visibleSize := by omega
  have hvs := resize_visibleSize fresh a (a.visibleSize + 1)
  have hold := resize_vector_old fresh a (a.visibleSize + 1)
  unfold insert
  rw [if_neg h1, if_neg h2]
  refine ⟨rfl, ?_, ?_, ?_, ?_⟩
  · simp only [size]
    exact hvs
  · simp only [get, store]
    have hne : i ≠ i + 1 := by omega
    rw [if_neg hne, insertLoop_apply _ _ _ _ _ (by omega)]
    simp [store_apply]
  · intro j hj
    simp only [get, store]
    have hne : j ≠ i + 1 := by omega
    have hne2 : j ≠ i := by omega
    rw [if_neg hne, insertLoop_apply _ _ _ _ _ (by omega)]
    have hc : ¬ (i < j ∧ j ≤ (resize fresh a (a.visibleSize + 1)).visibleSize - 1) := by omega
    rw [if_neg hc, store_apply, if_neg hne2]
    exact hold j (by omega)
  · intro j hij hj
    unfold size at hj
    simp only [get, store]
    by_cases hji : j = i
    · subst hji
      simp only [if_true, store_apply]
      exact hold j hj
    · have hne : j + 1 ≠ i + 1 := by omega
      rw [if_neg hne, insertLoop_apply _ _ _ _ _ (by omega)]
      have hc : i < j + 1 ∧ j + 1 ≤ (resize fresh a (a.visibleSize + 1)).visibleSize - 1 := by
        rw [hvs]; omega
      rw [if_pos hc]
      simp only [Nat.add_sub_cancel, store_apply, if_neg hji]
      exact hold j hj


/-- Claim C1: for every index `i < size()` and every value `v`, `insert(i, v)`
does not throw; afterwards the size is the old size plus one, the element at
`i` is `v`, every element that was at an index `j < i` is still at `j`, and
every element that was at an index `j ≥ i` is at `j + 1`.  The statement
covers both paths of `resize` (a new block, or spare capacity with stale
slots) and every content of a newly allocated block. -/
theorem insert_inserts_before [Inhabited T] (fresh : Nat → T) (a : Vector T) (i : Nat) (v : T)
    (hi : i < size a) :
    (insert fresh a i v).result = .ok () ∧
    size (insert fresh a i v).state = size a + 1 ∧
    get (insert fresh a i v).state i = v ∧
    (∀ j, j < i → get (insert fresh a i v).state j = get a j) ∧
    (∀ j, i ≤ j → j < size a → get (insert fresh a i v).state (j + 1) = get a j) :=
  insert_below_size fresh a i v hi

/-- Witness of C1 on both paths: `insert(1, 9)` into `[1, 2]` with spare
capacity, and into the full `[1, 2, 3, 4]`, which reallocates. -/
theorem insert_inserts_before_witness :
    1 < size exSpare ∧ 1 < size exFull ∧
    (insert exFresh exSpare 1 9).result = .ok () ∧
    size (insert exFresh exSpare 1 9).state = size exSpare + 1 ∧
    get (insert exFresh exSpare 1 9).state 1 = 9 ∧
    get (insert exFresh exSpare 1 9).state 0 = get exSpare 0 ∧
    get (insert exFresh exSpare 1 9).state (1 + 1) = get exSpare 1 ∧
    capacity (insert exFresh exSpare 1 9).state = 4 ∧
    get (insert exFresh exFull 1 9).state 1 = 9 ∧
    get (insert exFresh exFull 1 9).state (3 + 1) = get exFull 3 ∧
    capacity (insert exFresh exFull 1 9).state = 8 :=
  have h := insert_inserts_before exFresh exSpare 1 9 (by decide)
  have g := insert_inserts_before exFresh exFull 1 9 (by decide)
  ⟨by decide, by decide, h.1, h.2.1, h.2.2.1, h.2.2.2.1 0 (by decide),
    h.2.2.2.2 1 (by decide) (by decide), by decide, g.2.2.1,
    g.2.2.2.2 3 (by decide) (by decide), by decide⟩

/-- Effect of `push_back`: the size grows by one, the elements stay where they
were and `v` is the last one. -/
theorem push_back_effect [Inhabited T] (fresh : Nat → T) (a : Vector T) (v : T) :
    (push_back fresh a v).visibleSize = a.visibleSize + 1 ∧
    (∀ j, j < a.visibleSize → (push_back fresh a v)._vector j = a._vector j) ∧
    (push_back fresh a v)._vector a.visibleSize = v := by
  have hvs := resize_visibleSize fresh a (a.visibleSize + 1)
  have hold := resize_vector_old fresh a (a.visibleSize + 1)
  unfold push_back
  refine ⟨hvs, ?_, ?_⟩
  · intro j hj
    have hne : j ≠ (resize fresh a (a.visibleSize + 1)).visibleSize - 1 := by omega
    simp only [store_apply, if_neg hne]
    exact hold j hj
  · have he : a.visibleSize = (resize fresh a (a.visibleSize + 1)).visibleSize - 1 := by omega
    simp only [store_apply]
    rw [if_pos he]

/-- Claim C3: for every array and every value `v`, `push_back(v)` increases the
size by exactly one, leaves every element at an index below the old size
where it was, and puts `v` at index old size; this holds on both paths of
`resize` and whatever the slots beyond the size held (such as the stale
slots `clear()` leaves). -/
theorem push_back_appends [Inhabited T] (fresh : Nat → T) (a : Vector T) (v : T) :
    size (push_back fresh a v) = size a + 1 ∧
    (∀ j, j < size a → get (push_back fresh a v) j = get a j) ∧
    get (push_back fresh a v) (size a) = v ∧
    size (push_back fresh (clear a) v) = 1 ∧
    get (push_back fresh (clear a) v) 0 = v :=
  ⟨(push_back_effect fresh a v).1, (push_back_effect fresh a v).2.1,
    (push_back_effect fresh a v).2.2, (push_back_effect fresh (clear a) v).1,
    (push_back_effect fresh (clear a) v).2.2⟩

/-! ## Constructors -/

/-- Capacity after `init`: zero for size zero, otherwise the smallest power of
two that is at least the size. -/
theorem init_capacity (fresh : Nat → T) (n : Nat) (x : T) :
    (n = 0 ∧ (init fresh n x)._size = 0) ∨
    (0 < n ∧ SmallestPowerOfTwoGe (init fresh n x)._size n) := by
  rw [init_size]
  by_cases h : n = 0
  · left
    simp [h]
  · right
    rw [if_neg h]
    obtain ⟨k, hk, hle, hmin⟩ := initLoop_spec n
    refine ⟨by omega, ⟨k, hk⟩, by omega, ?_⟩
    intro m hm
    rw [hk]
    exact hmin m hm

/-- Counterexample to C2 as stated: for `n = 2 ^ 63 + 1` the constructor
`Vector(n, v)` never returns on a 64-bit `size_t`, whatever the number of
iterations allowed: `size` runs through the powers of two up to `2 ^ 63`, all
below `n`, then wraps to 0 and stays there.  So no size, capacity or element
results. -/
theorem ctor_never_returns_above_two_pow_63 :
    ¬ ∃ (fuel : Nat) (a : Vector Nat), ctorFill64 fuel exFresh (2 ^ 63 + 1) 5 = some a := by
  rintro ⟨fuel, a, h⟩
  have hnone := init64_none fuel exFresh (2 ^ 63 + 1) 5 (by omega)
  unfold ctorFill64 at h
  rw [hnone] at h
  cases h

/-- Claim C2, amended: for every `n` with `n ≤ 2 ^ 63` and every value `v`, the
constructor `Vector(n, v)` returns (with fuel above `n` for its loop) and
gives size `n`, capacity the smallest power of two that is at least `n` (0
when `n = 0`, 1 when `n = 1`) and `v` at every index below `n`; `Vector(n)`
is the same with the default value of `T`, and `Vector()` gives size 0 and
capacity 0. -/
theorem ctor_size_capacity_contents_bounded [Inhabited T] (fuel : Nat) (fresh : Nat → T)
    (n : Nat) (v : T) (hn : n ≤ 2 ^ 63) (hfuel : n < fuel) :
    ∃ a d : Vector T, ctorFill64 fuel fresh n v = some a ∧
      size a = n ∧
      ((n = 0 ∧ capacity a = 0) ∨ (0 < n ∧ SmallestPowerOfTwoGe (capacity a) n)) ∧
      (n = 1 → capacity a = 1) ∧
      (∀ j, j < n → get a j = v) ∧
      ctorSize64 fuel fresh n = ctorFill64 fuel fresh n default ∧
      ctorDefault64 fuel fresh = some d ∧ size d = 0 ∧ capacity d = 0 := by
  refine ⟨init fresh n v, init fresh 0 default, init64_eq fuel fresh n v hn hfuel, rfl,
    init_capacity fresh n v, ?_, ?_, rfl, init64_eq fuel fresh 0 default (by omega) (by omega),
    rfl, rfl⟩
  · intro h1
    subst h1
    rfl
  · intro j hj
    simp only [get, init_vector, if_pos hj]

/-- Witness of the amended C2: `Vector(3, 5)` returns within four tests of the
loop, with size 3 and capacity 4. -/
theorem ctor_size_capacity_contents_bounded_witness :
    (3 : Nat) ≤ 2 ^ 63 ∧ (3 : Nat) < 4 ∧
    (∃ a : Vector Nat, ctorFill64 4 exFresh 3 5 = some a ∧ size a = 3 ∧ get a 2 = 5) ∧
    (ctorFill64 4 exFresh 3 5).map capacity = some 4 :=
  ⟨by decide, by decide,
    match ctor_size_capacity_contents_bounded 4 exFresh 3 5 (by decide) (by decide) with
    | ⟨a, _, h1, h2, _, _, h5, _⟩ => ⟨a, h1, h2, h5 2 (by decide)⟩,
    by decide⟩

/-! ## erase -/

/-- Without growth `resize` only sets the size. -/
theorem resize_within [Inhabited T] (fresh : Nat → T) (a : Vector T) (sz : Nat)
    (h : ¬ sz > a._size) : resize fresh a sz = { a with visibleSize := sz } := by
  unfold resize
  rw [if_neg h]

/-- Effect of `erase` at an index below the size, for an object whose size does
not exceed its capacity. -/
theorem erase_below_size [Inhabited T] (fresh : Nat → T) (a : Vector T) (i : Nat)
    (hinv : a.visibleSize ≤ a._size) (hi : i < a.visibleSize) :
    (erase fresh a i).result = .ok () ∧
    (erase fresh a i).state.visibleSize = a.visibleSize - 1 ∧
    (erase fresh a i).state._size = a._size ∧
    (∀ j, (erase fresh a i).state._vector j =
      if i ≤ j ∧ j < a.visibleSize - 1 then a._vector (j + 1) else a._vector j) := by
  have h1 : ¬ i ≥ a.visibleSize := by omega
  unfold erase
  rw [if_neg h1]
  simp only []
  rw [resize_within _ _ _ (by simp only []; omega)]
  refine ⟨trivial, rfl, rfl, ?_⟩
  intro j
  exact eraseLoop_apply _ _ _ _ _ (by omega)

/-- Claim C4: for every array (size at most capacity) and every index
`i < size()`, `erase(i)` does not throw; afterwards the size is the old size
minus one, every element that was at an index `j < i` is still at `j`, every
element that was at an index `j > i` is at `j - 1`, and the capacity is
unchanged. -/
theorem erase_removes [Inhabited T] (fresh : Nat → T) (a : Vector T) (i : Nat)
    (hinv : size a ≤ capacity a) (hi : i < size a) :
    (erase fresh a i).result = .ok () ∧
    size (erase fresh a i).state = size a - 1 ∧
    (∀ j, j < i → get (erase fresh a i).state j = get a j) ∧
    (∀ j, i < j → j < size a → get (erase fresh a i).state (j - 1) = get a j) ∧
    capacity (erase fresh a i).state = capacity a := by
  obtain ⟨h1, h2, h3, h4⟩ := erase_below_size fresh a i hinv hi
  refine ⟨h1, h2, ?_, ?_, h3⟩
  · intro j hj
    have hc : ¬ (i ≤ j ∧ j < a.visibleSize - 1) := by omega
    simp only [get, h4, if_neg hc]
  · intro j hij hj
    unfold size at hj
    have hc : i ≤ j - 1 ∧ j - 1 < a.visibleSize - 1 := by omega
    have he : j - 1 + 1 = j := by omega
    simp only [get, h4, if_pos hc, he]

/-- Witness of C4: `erase(1)` on `[1, 2, 3, 4]` gives `[1, 3, 4]` in the same
block of four slots. -/
theorem erase_removes_witness :
    size exFull ≤ capacity exFull ∧ 1 < size exFull ∧
    (erase exFresh exFull 1).result = .ok () ∧
    size (erase exFresh exFull 1).state = size exFull - 1 ∧
    get (erase exFresh exFull 1).state 0 = get exFull 0 ∧
    get (erase exFresh exFull 1).state (2 - 1) = get exFull 2 ∧
    get (erase exFresh exFull 1).state (3 - 1) = get exFull 3 ∧
    capacity (erase exFresh exFull 1).state = capacity exFull :=
  have h := erase_removes exFresh exFull 1 (by decide) (by decide)
  ⟨by decide, by decide, h.1, h.2.1, h.2.2.1 0 (by decide),
    h.2.2.2.1 2 (by decide) (by decide), h.2.2.2.1 3 (by decide) (by decide), h.2.2.2.2⟩

/-! ## Bounds checks -/

/-- What `operator[]` returns or throws. -/
theorem operatorIndex_result (a : Vector T) (i : Nat) :
    (operatorIndex a i).result =
      if a.visibleSize ≤ i then .error .out_of_range else .ok (a._vector i) := by
  unfold operatorIndex
  split <;> rfl

/-- When `erase` throws. -/
theorem erase_result [Inhabited T] (fresh : Nat → T) (a : Vector T) (i : Nat) :
    (erase fresh a i).result = if a.visibleSize ≤ i then .error .out_of_range else .ok () := by
  unfold erase
  split <;> rfl

/-- When `insert` throws. -/
theorem insert_result [Inhabited T] (fresh : Nat → T) (a : Vector T) (i : Nat) (v : T) :
    (insert fresh a i v).result = if a.visibleSize < i then .error .out_of_range else .ok () := by
  unfold insert
  by_cases h : a.visibleSize < i
  · have h1 : i > a.visibleSize ∨ i < 0 := Or.inl h
    rw [if_pos h1, if_pos h]
  · have h1 : ¬ (i > a.visibleSize ∨ i < 0) := by omega
    rw [if_neg h1, if_neg h]
    split <;> rfl

/-- Claim C5: each bounds-checked operation throws `out_of_range` exactly when
its index is outside its valid range: `operator[](i)` (both overloads) throws
iff `i ≥ size()` and otherwise returns the element at `i`; `erase(i)` throws
iff `i ≥ size()`; `insert(i, v)` throws iff `i > size()`.  So
`operator[](size())` and `erase(size())` throw and `insert(size(), v)` does
not. -/
theorem bounds_checks [Inhabited T] (fresh : Nat → T) (a : Vector T) (i : Nat) (v : T) :
    ((operatorIndex a i).result = .error .out_of_range ↔ i ≥ size a) ∧
    (operatorIndex a i).result =
      (if i ≥ size a then .error .out_of_range else .ok (get a i)) ∧
    operatorIndexConst a i = (if i ≥ size a then .error .out_of_range else .ok (get a i)) ∧
    ((erase fresh a i).result = .error .out_of_range ↔ i ≥ size a) ∧
    ((insert fresh a i v).result = .error .out_of_range ↔ i > size a) ∧
    (operatorIndex a (size a)).result = .error .out_of_range ∧
    operatorIndexConst a (size a) = .error .out_of_range ∧
    (erase fresh a (size a)).result = .error .out_of_range ∧
    (insert fresh a (size a) v).result = .ok () := by
  simp only [operatorIndex_result, erase_result, insert_result, operatorIndexConst, size, get]
  refine ⟨?_, trivial, trivial, ?_, ?_, ?_, ?_, ?_, ?_⟩
  · by_cases h : a.visibleSize ≤ i <;> simp [h]
  · by_cases h : a.visibleSize ≤ i <;> simp [h]
  · by_cases h : a.visibleSize < i <;> simp [h]
  · simp
  · simp
  · simp
  · simp

/-- Claim C6: whenever `insert(i, v)`, `erase(i)` or `operator[](i)` throws
`out_of_range`, the object is exactly what it was before the call: the same
size, the same capacity and the same content of every slot. -/
theorem raise_leaves_state [Inhabited T] (fresh : Nat → T) (a : Vector T) (i : Nat) (v : T) :
    ((insert fresh a i v).result = .error .out_of_range → (insert fresh a i v).state = a) ∧
    ((erase fresh a i).result = .error .out_of_range → (erase fresh a i).state = a) ∧
    ((operatorIndex a i).result = .error .out_of_range → (operatorIndex a i).state = a) := by
  refine ⟨?_, ?_, ?_⟩
  · intro h
    rw [insert_result] at h
    by_cases hc : a.visibleSize < i
    · have h1 : i > a.visibleSize ∨ i < 0 := Or.inl hc
      unfold insert
      rw [if_pos h1]
    · rw [if_neg hc] at h
      cases h
  · intro h
    rw [erase_result] at h
    by_cases hc : a.visibleSize ≤ i
    · unfold erase
      rw [if_pos hc]
    · rw [if_neg hc] at h
      cases h
  · intro _
    unfold operatorIndex
    split <;> rfl

/-- Instance of C6: out of range calls on `[1, 2]` (capacity 4) throw and
return the object as it was. -/
theorem raise_leaves_state_witness :
    (insert exFresh exSpare 3 9).result = .error .out_of_range ∧
    (insert exFresh exSpare 3 9).state = exSpare ∧
    (erase exFresh exSpare 2).result = .error .out_of_range ∧
    (erase exFresh exSpare 2).state = exSpare ∧
    (operatorIndex exSpare 2).result = .error .out_of_range ∧
    (operatorIndex exSpare 2).state = exSpare :=
  have h := raise_leaves_state exFresh exSpare 3 9
  have g := raise_leaves_state exFresh exSpare 2 9
  ⟨rfl, h.1 rfl, rfl, g.2.1 rfl, rfl, g.2.2 rfl⟩

/-! ## Equality -/

/-- The comparison loop returns `true` exactly when the elements of all the
slots it visits compare equal. -/
theorem eqLoop_iff [BEq T] (x y : Nat → T) (n fuel i : Nat) (hfuel : n - i ≤ fuel) :
    eqLoop x y n fuel i = true ↔ ∀ j, i ≤ j → j < n → (x j == y j) = true := by
  induction fuel generalizing i with
  | zero =>
    simp only [eqLoop, true_iff]
    intro j h1 h2
    omega
  | succ fuel ih =>
    unfold eqLoop
    by_cases hlt : i < n
    · rw [if_pos hlt]
      by_cases he : (x i == y i) = true
      · simp only [he, Bool.not_true, Bool.false_eq_true, if_false]
        rw [ih (i + 1) (by omega)]
        constructor
        · intro h j h1 h2
          by_cases hji : j = i
          · subst hji; exact he
          · exact h j (by omega) h2
        · intro h j h1 h2
          exact h j (by omega) h2
      · have hf : (x i == y i) = false := by simpa using he
        simp only [hf, Bool.not_false, if_true, Bool.false_eq_true, false_iff]
        intro h
        exact he (h i (le_refl i) hlt)
    · rw [if_neg hlt]
      simp only [true_iff]
      intro j h1 h2
      omega

/-- `operator==` holds exactly for equal sizes and pairwise equal elements. -/
theorem operatorEq_iff [BEq T] (a b : Vector T) :
    operatorEq a b = true ↔
      a.visibleSize = b.visibleSize ∧ ∀ j, j < a.visibleSize → (a._vector j == b._vector j) = true := by
  unfold operatorEq
  by_cases h : a.visibleSize = b.visibleSize
  · rw [if_pos h, eqLoop_iff _ _ _ _ _ (by omega)]
    constructor
    · intro hx
      exact ⟨h, fun j hj => hx j (Nat.zero_le j) hj⟩
    · intro hx j _ hj
      exact hx.2 j hj
  · rw [if_neg h]
    simp [h]

/-- Claim C7: `a == b` is true iff the sizes are equal and the elements at every
index below the size compare equal; the result depends neither on the
capacities nor on the slots at indices at or beyond the size; when the element
comparison is reflexive `==` is reflexive, when it is symmetric `==` is
symmetric; and `a != b` is the negation of `a == b`. -/
theorem equality_by_size_and_elements [BEq T] (a b : Vector T) :
    (operatorEq a b = true ↔
      size a = size b ∧ ∀ j, j < size a → (get a j == get b j) = true) ∧
    (∀ a1 b1 : Vector T, size a1 = size a → size b1 = size b →
      (∀ j, j < size a → get a1 j = get a j) → (∀ j, j < size b → get b1 j = get b j) →
      operatorEq a1 b1 = operatorEq a b) ∧
    ((∀ x : T, (x == x) = true) → operatorEq a a = true) ∧
    ((∀ x y : T, (x == y) = (y == x)) → operatorEq a b = operatorEq b a) ∧
    operatorNe a b = !(operatorEq a b) := by
  refine ⟨operatorEq_iff a b, ?_, ?_, ?_, rfl⟩
  · intro a1 b1 ha hb hva hvb
    simp only [size, get] at ha hb hva hvb
    rw [Bool.eq_iff_iff, operatorEq_iff, operatorEq_iff, ha, hb]
    constructor
    · rintro ⟨hs, he⟩
      refine ⟨hs, fun j hj => ?_⟩
      rw [← hva j hj, ← hvb j (by omega)]
      exact he j hj
    · rintro ⟨hs, he⟩
      refine ⟨hs, fun j hj => ?_⟩
      rw [hva j hj, hvb j (by omega)]
      exact he j hj
  · intro hrefl
    rw [operatorEq_iff]
    exact ⟨rfl, fun j _ => hrefl _⟩
  · intro hsymm
    rw [Bool.eq_iff_iff, operatorEq_iff, operatorEq_iff]
    constructor
    · rintro ⟨hs, he⟩
      refine ⟨hs.symm, fun j hj => ?_⟩
      rw [hsymm]
      exact he j (by omega)
    · rintro ⟨hs, he⟩
      refine ⟨hs.symm, fun j hj => ?_⟩
      rw [hsymm]
      exact he j (by omega)

/-- Instance of C7: `[1, 2]` in four slots with stale content equals `[1, 2]`
in two slots, in both directions, and differs from `[1, 2, 3, 4]`. -/
theorem equality_by_size_and_elements_witness :
    operatorEq exSpare (ctorCopy exFresh exSpare).object = operatorEq exSpare exSpare ∧
    operatorEq exSpare exSpare = true ∧
    operatorEq exSpare exFull = operatorEq exFull exSpare ∧
    operatorNe exSpare exFull = true :=
  have h := equality_by_size_and_elements exSpare exSpare
  have g := equality_by_size_and_elements exSpare exFull
  ⟨h.2.1 exSpare (ctorCopy exFresh exSpare).object rfl rfl (fun _ _ => rfl) (by decide),
    h.2.2.1 (fun x => beq_self_eq_true x), g.2.2.2.1 (fun x y => Bool.beq_comm),
    by decide⟩

/-! ## find -/

/-- The search loop entered at slot `p` stops at the first slot from `p` on
whose element compares equal to `sought`, or at the end position. -/
theorem findLoop_spec [BEq T] (a : Vector T) (sought : T) (fuel p : Nat)
    (hp : p ≤ a.visibleSize) (hfuel : a.visibleSize - p ≤ fuel) :
    ∃ k : Nat, findLoop a sought fuel ⟨(p : Int)⟩ = ⟨(k : Int)⟩ ∧ p ≤ k ∧ k ≤ a.visibleSize ∧
      (k < a.visibleSize → (a._vector k == sought) = true) ∧
      ∀ j, p ≤ j → j < k → (a._vector j == sought) = false := by
  induction fuel generalizing p with
  | zero =>
    refine ⟨p, rfl, le_refl p, hp, fun h => ?_, fun j h1 h2 => ?_⟩ <;> omega
  | succ fuel ih =>
    unfold findLoop
    by_cases hend : p = a.visibleSize
    · have hne : iterator.ne ⟨(p : Int)⟩ a.end = false := by
        simp [iterator.ne, Vector.end, hend]
      rw [hne]
      simp only [Bool.false_and, Bool.false_eq_true, if_false]
      refine ⟨p, rfl, le_refl p, hp, fun h => ?_, fun j h1 h2 => ?_⟩ <;> omega
    · have hne : iterator.ne ⟨(p : Int)⟩ a.end = true := by
        simp only [iterator.ne, Vector.end, decide_eq_true_eq]
        omega
      have hd : iterator.deref ⟨(p : Int)⟩ a = a._vector p := by
        simp [iterator.deref]
      rw [hne, hd]
      by_cases hm : (a._vector p == sought) = true
      · simp only [hm, Bool.not_true, Bool.and_false, Bool.false_eq_true, if_false]
        refine ⟨p, rfl, le_refl p, hp, fun _ => hm, fun j h1 h2 => ?_⟩
        omega
      · have hf : (a._vector p == sought) = false := by simpa using hm
        simp only [hf, Bool.not_false, Bool.and_true, if_true]
        obtain ⟨k, hk, h1, h2, h3, h4⟩ := ih (p + 1) (by omega) (by omega)
        have hi : iterator.incr ⟨(p : Int)⟩ = ⟨((p + 1 : Nat) : Int)⟩ := by
          simp [iterator.incr]
        rw [hi]
        refine ⟨k, hk, by omega, h2, h3, fun j hj1 hj2 => ?_⟩
        by_cases hjp : j = p
        · subst hjp; exact hf
        · exact h4 j (by omega) hj2

/-- Claim C8: `find(v)` (both overloads) returns the position `k` of the first
element that compares equal to `v`: `k < size()`, the element at `k` equals
`v` and no element at an index below `k` does; when no element at an index
below `size()` equals `v` (an empty array, or `v` only in a stale slot) it
returns the end position, index `size()`.  The object is left unchanged. -/
theorem find_first_match [BEq T] (a : Vector T) (v : T) :
    ∃ k : Nat, (find a v).1 = ⟨(k : Int)⟩ ∧ findConst a v = ⟨(k : Int)⟩ ∧ k ≤ size a ∧
      (k < size a → (get a k == v) = true) ∧
      (∀ j, j < k → (get a j == v) = false) ∧
      (∀ j, j < size a → (get a j == v) = true → k ≤ j ∧ k < size a) ∧
      ((∀ j, j < size a → (get a j == v) = false) → k = size a ∧ (find a v).1 = a.end) ∧
      (find a v).2 = a := by
  obtain ⟨k, hk, _, h2, h3, h4⟩ := findLoop_spec a v a.visibleSize 0 (Nat.zero_le _) (by omega)
  have hk' : findLoop a v a.visibleSize a.begin = ⟨(k : Int)⟩ := hk
  refine ⟨k, hk', hk', h2, h3, fun j hj => h4 j (Nat.zero_le j) hj, ?_, ?_, rfl⟩
  · intro j hj he
    simp only [size, get] at hj he
    have hkj : k ≤ j := by
      by_contra hc
      have := h4 j (Nat.zero_le j) (by omega)
      rw [he] at this
      cases this
    exact ⟨hkj, by simp only [size]; omega⟩
  · intro hall
    simp only [size, get] at hall
    have hks : k = a.visibleSize := by
      by_contra hc
      have hlt : k < a.visibleSize := by omega
      have := h3 hlt
      rw [hall k hlt] at this
      cases this
    refine ⟨hks, ?_⟩
    show findLoop a v a.visibleSize a.begin = a.end
    rw [hk', hks]
    rfl

/-- Instance of C8 on `[1, 2]` with stale `99` in slots 2 and 3: `find(2)` is
position 1, `find(99)` and `find(5)` are the end position 2, and `find` on
an empty array is its end position. -/
theorem find_first_match_witness :
    findConst exSpare 2 = ⟨1⟩ ∧ findConst exSpare 99 = exSpare.end ∧
    (find exSpare 5).1 = exSpare.end ∧ findConst (clear exSpare) 1 = ⟨0⟩ ∧
    ∃ k : Nat, findConst exFull 3 = ⟨(k : Int)⟩ ∧ k ≤ size exFull :=
  ⟨by decide, by decide, by decide, by decide,
    (find_first_match exFull 3).imp fun _ h => ⟨h.2.1, h.2.2.1⟩⟩

/-! ## Copy construction and copy assignment -/

/-- Slots of the object after `copy`. -/
theorem copy_vector (self src : Vector T) (j : Nat) :
    (copy self src)._vector j = if j < src.visibleSize then src._vector j else self._vector j := by
  simp [copy, copyLoop_apply]

/-- Copy assignment from an array that compares equal does nothing. -/
theorem operatorAssign_of_eq [Inhabited T] [BEq T] (fresh : Nat → T) (a b : Vector T)
    (h : operatorEq b a = true) : (operatorAssign fresh a b).object = a := by
  unfold operatorAssign
  simp [h]

/-- Copy assignment from an array that does not compare equal: the size and the
live elements become those of the source; the block is kept when the source
fits in it and is replaced by one `init` sizes for the source otherwise. -/
theorem operatorAssign_of_ne [Inhabited T] [BEq T] (fresh : Nat → T) (a b : Vector T)
    (h : operatorEq b a = false) :
    (operatorAssign fresh a b).object.visibleSize = b.visibleSize ∧
    (∀ j, j < b.visibleSize → (operatorAssign fresh a b).object._vector j = b._vector j) ∧
    (operatorAssign fresh a b).object._size =
      if b.visibleSize > a._size then (init fresh b.visibleSize (default : T))._size
      else a._size := by
  unfold operatorAssign
  simp only [h, Bool.not_false, if_true]
  refine ⟨?_, fun j hj => ?_, ?_⟩
  · split <;> rfl
  · rw [copy_vector, if_pos hj]
  · split <;> rfl

/-- Counterexample to C9 as stated.  With elements compared by key only (a
reflexive and symmetric `==`), `b == a` holds for `a = [(1, 10)]` and
`b = [(1, 20)]`, so `a = b` copies nothing: `a` keeps the payload 10 and does
not have the element of `b`.  With an element that does not compare equal to
itself, `a == b` does not hold after `a = b`. -/
theorem copy_assignment_skips_equal_arrays :
    operatorEq exKeyedB exKeyedA = true ∧
    get (operatorAssign (fun _ => default) exKeyedA exKeyedB).object 0 = ⟨1, 10⟩ ∧
    get exKeyedB 0 = ⟨1, 20⟩ ∧
    get (operatorAssign (fun _ => default) exKeyedA exKeyedB).object 0 ≠ get exKeyedB 0 ∧
    operatorEq (operatorAssign (fun _ => default) (ctorDefault (fun _ => default)) exNan).object
      exNan = false := by
  decide

/-- The self assignment `a = a` of an array with an element that does not
compare equal to itself: `reset()` runs on the object that is also the
argument, and `[nan, 7]` becomes `[0, 0]`. -/
theorem operatorAssignSelf_irreflexive :
    get (operatorAssignSelf (fun _ => default) exNan) 0 = .val 0 ∧
    get (operatorAssignSelf (fun _ => default) exNan) 1 = .val 0 ∧
    size (operatorAssignSelf (fun _ => default) exNan) = 2 ∧
    capacity (operatorAssignSelf (fun _ => default) exNan) = 2 := by
  decide

/-- The self assignment of an array that compares equal to itself does
nothing. -/
theorem operatorAssignSelf_of_eq [Inhabited T] [BEq T] (fresh : Nat → T) (a : Vector T)
    (h : operatorEq a a = true) : operatorAssignSelf fresh a = a := by
  unfold operatorAssignSelf
  simp [h]

/-- Claim C9, amended: after the copy assignment `a = b` between two objects, `a`
has the size of `b` and `b` is unchanged.  When `b == a` was false before,
`a` has exactly the elements of `b`; when it was true, `a` is left as it was,
with elements that compare equal to those of `b` (`b[i] == a[i]`) and are
identical to them when elements that compare equal are identical.  After the
call `a == b` holds when the element comparison is reflexive and symmetric.
The capacity of `a` is unchanged when `b == a` held before or when `b.size()`
is at most the old capacity, and otherwise it is the smallest power of two
that is at least `b.size()`.  The self assignment `a = a` leaves `a` as it
was when the element comparison is reflexive. -/
theorem copy_assignment_effect [Inhabited T] [BEq T] (fresh : Nat → T) (a b : Vector T) :
    size (operatorAssign fresh a b).object = size b ∧
    (operatorAssign fresh a b).argument = b ∧
    (operatorEq b a = false →
      ∀ j, j < size b → get (operatorAssign fresh a b).object j = get b j) ∧
    (operatorEq b a = true →
      (operatorAssign fresh a b).object = a ∧
      ∀ j, j < size b → (get b j == get (operatorAssign fresh a b).object j) = true) ∧
    ((∀ x y : T, (x == y) = true → x = y) →
      ∀ j, j < size b → get (operatorAssign fresh a b).object j = get b j) ∧
    ((∀ x : T, (x == x) = true) → (∀ x y : T, (x == y) = (y == x)) →
      operatorEq (operatorAssign fresh a b).object b = true) ∧
    (operatorEq b a = true ∨ size b ≤ capacity a →
      capacity (operatorAssign fresh a b).object = capacity a) ∧
    (operatorEq b a = false → capacity a < size b →
      SmallestPowerOfTwoGe (capacity (operatorAssign fresh a b).object) (size b)) ∧
    ((∀ x : T, (x == x) = true) → operatorAssignSelf fresh a = a) := by
  have harg : (operatorAssign fresh a b).argument = b := by
    unfold operatorAssign
    split <;> rfl
  have hself : (∀ x : T, (x == x) = true) → operatorAssignSelf fresh a = a := by
    intro hrefl
    exact operatorAssignSelf_of_eq fresh a ((operatorEq_iff a a).mpr ⟨rfl, fun _ _ => hrefl _⟩)
  simp only [size, get, capacity]
  cases hba : operatorEq b a with
  | true =>
    rw [operatorAssign_of_eq fresh a b hba]
    have hiff := (operatorEq_iff b a).mp hba
    refine ⟨hiff.1.symm, harg, ?_, fun _ => ⟨rfl, hiff.2⟩, ?_, ?_, fun _ => rfl, ?_, hself⟩
    · intro hne
      cases hne
    · intro hlaw j hj
      exact (hlaw _ _ (hiff.2 j hj)).symm
    · intro _ hsymm
      rw [operatorEq_iff]
      refine ⟨hiff.1.symm, fun j hj => ?_⟩
      rw [hsymm]
      exact hiff.2 j (by omega)
    · intro hne
      cases hne
  | false =>
    obtain ⟨h1, h2, h3⟩ := operatorAssign_of_ne fresh a b hba
    refine ⟨h1, harg, fun _ => h2, ?_, fun _ => h2, ?_, ?_, ?_, hself⟩
    · intro hne
      cases hne
    · intro hrefl _
      rw [operatorEq_iff]
      refine ⟨h1, fun j hj => ?_⟩
      rw [h2 j (by omega)]
      exact hrefl _
    · intro hor
      have hle : b.visibleSize ≤ a._size := by
        rcases hor with hf | hle
        · cases hf
        · exact hle
      rw [h3, if_neg (by omega)]
    · intro _ hlt
      rw [h3, if_pos hlt]
      rcases init_capacity fresh b.visibleSize (default : T) with ⟨h0, _⟩ | ⟨_, hp⟩
      · omega
      · exact hp

/-- Instance of the amended C9: assigning the full `[1, 2, 3, 4]` to `[1, 2]`
(capacity 4) copies into the same block; assigning `[1, 2]` to an empty array
without storage gives a block of two slots; assigning `[(1, 20)]` to
`[(1, 10)]` leaves the latter as it was. -/
theorem copy_assignment_effect_witness :
    size (operatorAssign exFresh exSpare exFull).object = size exFull ∧
    (operatorAssign exFresh exSpare exFull).argument = exFull ∧
    get (operatorAssign exFresh exSpare exFull).object 3 = get exFull 3 ∧
    operatorEq (operatorAssign exFresh exSpare exFull).object exFull = true ∧
    capacity (operatorAssign exFresh exSpare exFull).object = capacity exSpare ∧
    SmallestPowerOfTwoGe
      (capacity (operatorAssign exFresh (ctorDefault exFresh) exSpare).object) (size exSpare) ∧
    (operatorAssign (fun _ => default) exKeyedA exKeyedB).object = exKeyedA ∧
    operatorAssignSelf exFresh exSpare = exSpare :=
  have h := copy_assignment_effect exFresh exSpare exFull
  have g := copy_assignment_effect exFresh (ctorDefault exFresh) exSpare
  have k := copy_assignment_effect (fun _ => default) exKeyedA exKeyedB
  ⟨h.1, h.2.1, h.2.2.1 (by decide) 3 (by decide),
    h.2.2.2.2.2.1 (fun x => beq_self_eq_true x) (fun _ _ => Bool.beq_comm),
    h.2.2.2.2.2.2.1 (Or.inr (by decide)), g.2.2.2.2.2.2.2.1 (by decide) (by decide),
    (k.2.2.2.1 (by decide)).1, h.2.2.2.2.2.2.2.2 (fun x => beq_self_eq_true x)⟩

/-! ## Move construction and move assignment -/

/-- After `swap` each of the two objects is what the other was. -/
theorem swap_members (a b : Vector T) : (swap a b).object = b ∧ (swap a b).argument = a :=
  ⟨rfl, rfl⟩

/-- The object `init()` leaves has size 0 and capacity 0. -/
theorem init0_members [Inhabited T] (fresh : Nat → T) :
    (init0 fresh).visibleSize = 0 ∧ (init0 fresh)._size = 0 := ⟨rfl, rfl⟩

/-- An array compares equal to the object `init()` leaves exactly when it has no
element. -/
theorem operatorEq_init0 [Inhabited T] [BEq T] (fresh : Nat → T) (src : Vector T) :
    operatorEq src (init0 fresh) = true ↔ src.visibleSize = 0 := by
  rw [operatorEq_iff, (init0_members fresh).1]
  constructor
  · intro h
    exact h.1
  · intro h
    refine ⟨h, fun j hj => ?_⟩
    omega

/-- Move construction from a source with elements exchanges the source with the
empty object. -/
theorem ctorMove_of_pos [Inhabited T] [BEq T] (fresh : Nat → T) (src : Vector T)
    (h : 0 < src.visibleSize) :
    (ctorMove fresh src).object = src ∧ (ctorMove fresh src).argument = init0 fresh := by
  have hne : operatorEq src (init0 fresh) = false := by
    cases he : operatorEq src (init0 fresh) with
    | false => rfl
    | true =>
      have := (operatorEq_init0 fresh src).mp he
      omega
  unfold ctorMove
  simp only [hne, Bool.not_false, if_true]
  exact swap_members (init0 fresh) src

/-- Move construction from a source without elements skips the exchange: the new
object is the empty one and the source is left as it was. -/
theorem ctorMove_of_zero [Inhabited T] [BEq T] (fresh : Nat → T) (src : Vector T)
    (h : src.visibleSize = 0) :
    (ctorMove fresh src).object = init0 fresh ∧ (ctorMove fresh src).argument = src := by
  have he : operatorEq src (init0 fresh) = true := (operatorEq_init0 fresh src).mpr h
  unfold ctorMove
  simp only [he, Bool.not_true, Bool.false_eq_true, if_false]
  exact ⟨trivial, trivial⟩

/-- Move assignment between objects whose pointers differ: the object becomes
what the argument was and the argument becomes the empty object. -/
theorem operatorMoveAssign_of_ne [Inhabited T] (fresh : Nat → T) (selfPtr vPtr : Nat)
    (self v : Vector T) (h : vPtr ≠ selfPtr) :
    (operatorMoveAssign fresh selfPtr vPtr self v).object = v ∧
    (operatorMoveAssign fresh selfPtr vPtr self v).argument = init0 fresh := by
  unfold operatorMoveAssign
  rw [if_pos h]
  exact swap_members (init0 fresh) v

/-- Claim C11: for two distinct arrays `a` and `b` (the `_vector` pointers
differ), after the move assignment `b = move(a)` the array `a` has size 0 and
capacity 0, and `b` has exactly the size, the capacity and the elements `a`
had before, whatever `b` held. -/
theorem move_assignment_transfers [Inhabited T] (fresh : Nat → T) (bPtr aPtr : Nat)
    (b a : Vector T) (hdistinct : aPtr ≠ bPtr) :
    size (operatorMoveAssign fresh bPtr aPtr b a).argument = 0 ∧
    capacity (operatorMoveAssign fresh bPtr aPtr b a).argument = 0 ∧
    size (operatorMoveAssign fresh bPtr aPtr b a).object = size a ∧
    capacity (operatorMoveAssign fresh bPtr aPtr b a).object = capacity a ∧
    (∀ j, get (operatorMoveAssign fresh bPtr aPtr b a).object j = get a j) ∧
    (operatorMoveAssign fresh bPtr aPtr b a).object = a := by
  obtain ⟨h1, h2⟩ := operatorMoveAssign_of_ne fresh bPtr aPtr b a hdistinct
  rw [h1, h2]
  exact ⟨rfl, rfl, rfl, rfl, fun _ => rfl, rfl⟩

/-- Witness of C11: `b = move(a)` with `a = [1, 2]` (capacity 4) and
`b = [1, 2, 3, 4]` at different addresses. -/
theorem move_assignment_transfers_witness :
    (2 : Nat) ≠ 1 ∧
    size (operatorMoveAssign exFresh 1 2 exFull exSpare).argument = 0 ∧
    capacity (operatorMoveAssign exFresh 1 2 exFull exSpare).argument = 0 ∧
    size (operatorMoveAssign exFresh 1 2 exFull exSpare).object = size exSpare ∧
    capacity (operatorMoveAssign exFresh 1 2 exFull exSpare).object = capacity exSpare ∧
    get (operatorMoveAssign exFresh 1 2 exFull exSpare).object 1 = get exSpare 1 :=
  have h := move_assignment_transfers exFresh 1 2 exFull exSpare (by decide)
  ⟨by decide, h.1, h.2.1, h.2.2.1, h.2.2.2.1, h.2.2.2.2.1 1⟩

/-- Counterexample to C18 as stated: the array `clear()` leaves of
`[1, 2, 3, 4]` has size 0 and capacity 4; it compares equal to the empty
object, so the move constructor skips the swap: the new array has capacity 0,
not 4, and the source keeps its capacity 4. -/
theorem move_constructor_keeps_cleared_source :
    size (clear exFull) = 0 ∧ capacity (clear exFull) = 4 ∧
    capacity (ctorMove exFresh (clear exFull)).object = 0 ∧
    capacity (ctorMove exFresh (clear exFull)).argument = 4 ∧
    ¬ (capacity (ctorMove exFresh (clear exFull)).object = capacity (clear exFull) ∧
      capacity (ctorMove exFresh (clear exFull)).argument = 0) := by
  decide

/-- Claim C18, amended: move construction transfers the storage block from
every source that has an element: the new array has the capacity the source
had and the source has capacity 0.  From a source of size 0 the guard
`oldVec == *this` skips the exchange: the new array has capacity 0 and the
source keeps its capacity. -/
theorem move_constructor_capacity [Inhabited T] [BEq T] (fresh : Nat → T) (src : Vector T) :
    (0 < size src →
      capacity (ctorMove fresh src).object = capacity src ∧
      capacity (ctorMove fresh src).argument = 0) ∧
    (size src = 0 →
      capacity (ctorMove fresh src).object = 0 ∧
      capacity (ctorMove fresh src).argument = capacity src) := by
  refine ⟨fun h => ?_, fun h => ?_⟩
  · obtain ⟨h1, h2⟩ := ctorMove_of_pos fresh src h
    rw [h1, h2]
    exact ⟨rfl, rfl⟩
  · obtain ⟨h1, h2⟩ := ctorMove_of_zero fresh src h
    rw [h1, h2]
    exact ⟨rfl, rfl⟩

/-- Instance of the amended C18 on `[1, 2]` (capacity 4) and on the cleared
`[1, 2, 3, 4]`. -/
theorem move_constructor_capacity_witness :
    capacity (ctorMove exFresh exSpare).object = capacity exSpare ∧
    capacity (ctorMove exFresh exSpare).argument = 0 ∧
    capacity (ctorMove exFresh (clear exFull)).object = 0 ∧
    capacity (ctorMove exFresh (clear exFull)).argument = capacity (clear exFull) :=
  have h := (move_constructor_capacity exFresh exSpare).1 (by decide)
  have g := (move_constructor_capacity exFresh (clear exFull)).2 (by decide)
  ⟨h.1, h.2, g.1, g.2⟩

/-! ## insert, push_back and erase together -/

/-- `resize` never makes the capacity smaller. -/
theorem resize_size_mono [Inhabited T] (fresh : Nat → T) (a : Vector T) (sz : Nat) :
    a._size ≤ (resize fresh a sz)._size := by
  rw [resize_size]
  split
  · have := init_size_ge fresh sz (default : T)
    unfold init1
    omega
  · exact le_refl _

/-- Capacity after `push_back`: that of `resize(visibleSize + 1)`. -/
theorem push_back_size [Inhabited T] (fresh : Nat → T) (a : Vector T) (v : T) :
    (push_back fresh a v)._size = (resize fresh a (a.visibleSize + 1))._size := rfl

/-- Capacity after `insert`: that of `resize(visibleSize + 1)` when the index is
in range, the old one when the call throws. -/
theorem insert_state_size [Inhabited T] (fresh : Nat → T) (a : Vector T) (i : Nat) (v : T) :
    (insert fresh a i v).state._size =
      if i ≤ a.visibleSize then (resize fresh a (a.visibleSize + 1))._size else a._size := by
  unfold insert
  by_cases h : i ≤ a.visibleSize
  · have h1 : ¬ (i > a.visibleSize ∨ i < 0) := by omega
    rw [if_neg h1, if_pos h]
    split <;> rfl
  · have h1 : i > a.visibleSize ∨ i < 0 := by omega
    rw [if_pos h1, if_neg h]

/-- Effect of `insert` at any index up to the size. -/
theorem insert_le_size [Inhabited T] (fresh : Nat → T) (a : Vector T) (i : Nat) (v : T)
    (hi : i ≤ a.visibleSize) :
    (insert fresh a i v).result = .ok () ∧
    (insert fresh a i v).state.visibleSize = a.visibleSize + 1 ∧
    (insert fresh a i v).state._vector i = v ∧
    (∀ j, j < i → (insert fresh a i v).state._vector j = a._vector j) ∧
    (∀ j, i ≤ j → j < a.visibleSize →
      (insert fresh a i v).state._vector (j + 1) = a._vector j) := by
  by_cases hlt : i < a.visibleSize
  · exact insert_below_size fresh a i v hlt
  · have he : i = a.visibleSize := by omega
    have h1 : ¬ (i > a.visibleSize ∨ i < 0) := by omega
    obtain ⟨p1, p2, p3⟩ := push_back_effect fresh a v
    unfold insert
    rw [if_neg h1, if_pos he]
    refine ⟨rfl, p1, ?_, ?_, ?_⟩
    · rw [he]; exact p3
    · intro j hj
      exact p2 j (by omega)
    · intro j h2 h3
      omega

/-- At the index `visibleSize`, `insert` is the call of `push_back`. -/
theorem insert_at_size [Inhabited T] (fresh : Nat → T) (a : Vector T) (v : T) :
    insert fresh a a.visibleSize v = ⟨.ok (), push_back fresh a v⟩ := by
  have h1 : ¬ (a.visibleSize > a.visibleSize ∨ a.visibleSize < 0) := by omega
  unfold insert
  rw [if_neg h1, if_pos rfl]

/-- `insert` at an index up to the size followed by `erase` at that index: the
size and the elements are back, and the capacity is that of the `resize`
the insertion made. -/
theorem insert_erase [Inhabited T] (fresh fresh2 : Nat → T) (a : Vector T) (i : Nat) (v : T)
    (hi : i ≤ a.visibleSize) :
    (erase fresh2 (insert fresh a i v).state i).result = .ok () ∧
    (erase fresh2 (insert fresh a i v).state i).state.visibleSize = a.visibleSize ∧
    (∀ j, j < a.visibleSize →
      (erase fresh2 (insert fresh a i v).state i).state._vector j = a._vector j) ∧
    a._size ≤ (erase fresh2 (insert fresh a i v).state i).state._size := by
  obtain ⟨_, p2, _, p4, p5⟩ := insert_le_size fresh a i v hi
  have hcap := insert_state_size fresh a i v
  rw [if_pos hi] at hcap
  have hge := resize_size_ge fresh a (a.visibleSize + 1)
  have hmono := resize_size_mono fresh a (a.visibleSize + 1)
  obtain ⟨e1, e2, e3, e4⟩ :=
    erase_below_size fresh2 (insert fresh a i v).state i (by omega) (by omega)
  refine ⟨e1, by omega, ?_, by omega⟩
  intro j hj
  rw [e4]
  by_cases hij : i ≤ j
  · have hc : i ≤ j ∧ j < (insert fresh a i v).state.visibleSize - 1 := by omega
    rw [if_pos hc]
    exact p5 j hij hj
  · have hc : ¬ (i ≤ j ∧ j < (insert fresh a i v).state.visibleSize - 1) := by omega
    rw [if_neg hc]
    exact p4 j (by omega)

/-- Claim C13: for every array, value `v` and index `i ≤ size()`, `insert(i, v)`
followed by `erase(i)` restores the sequence: neither call throws, the size
and the element at every index are those before; in particular so does
`push_back(v)` followed by `erase` at the old size.  The capacity after the
pair is at least the capacity before, and can be larger (8 after 4 for the
full `[1, 2, 3, 4]`). -/
theorem insert_then_erase_restores [Inhabited T] (fresh fresh2 : Nat → T) (a : Vector T)
    (i : Nat) (v : T) (hi : i ≤ size a) :
    (insert fresh a i v).result = .ok () ∧
    (erase fresh2 (insert fresh a i v).state i).result = .ok () ∧
    size (erase fresh2 (insert fresh a i v).state i).state = size a ∧
    (∀ j, j < size a → get (erase fresh2 (insert fresh a i v).state i).state j = get a j) ∧
    capacity a ≤ capacity (erase fresh2 (insert fresh a i v).state i).state ∧
    (erase fresh2 (push_back fresh a v) (size a)).result = .ok () ∧
    size (erase fresh2 (push_back fresh a v) (size a)).state = size a ∧
    (∀ j, j < size a → get (erase fresh2 (push_back fresh a v) (size a)).state j = get a j) ∧
    capacity a ≤ capacity (erase fresh2 (push_back fresh a v) (size a)).state ∧
    capacity exFull < capacity (erase exFresh (push_back exFresh exFull 9) (size exFull)).state := by
  obtain ⟨h1, h2, h3, h4⟩ := insert_erase fresh fresh2 a i v hi
  have g := insert_erase fresh fresh2 a a.visibleSize v (le_refl _)
  rw [insert_at_size] at g
  obtain ⟨g1, g2, g3, g4⟩ := g
  exact ⟨(insert_le_size fresh a i v hi).1, h1, h2, h3, h4, g1, g2, g3, g4, by decide⟩

/-- Witness of C13: `insert(1, 9)` then `erase(1)` on `[1, 2]` (capacity 4) and
on the full `[1, 2, 3, 4]`, whose capacity grows to 8. -/
theorem insert_then_erase_restores_witness :
    1 ≤ size exSpare ∧
    size (erase exFresh (insert exFresh exSpare 1 9).state 1).state = size exSpare ∧
    get (erase exFresh (insert exFresh exSpare 1 9).state 1).state 1 = get exSpare 1 ∧
    capacity (erase exFresh (insert exFresh exSpare 1 9).state 1).state = 4 ∧
    get (erase exFresh (insert exFresh exFull 1 9).state 1).state 3 = get exFull 3 ∧
    capacity (erase exFresh (insert exFresh exFull 1 9).state 1).state = 8 :=
  have h := insert_then_erase_restores exFresh exFresh exSpare 1 9 (by decide)
  have g := insert_then_erase_restores exFresh exFresh exFull 1 9 (by decide)
  ⟨by decide, h.2.2.1, h.2.2.2.1 1 (by decide), by decide, g.2.2.2.1 3 (by decide), by decide⟩

/-- Claim C14: for every array and every value `v`, `insert(size(), v)` does not
throw and leaves exactly the state `push_back(v)` leaves: the same size, the
same capacity and the same content of every slot. -/
theorem insert_at_size_is_push_back [Inhabited T] (fresh : Nat → T) (a : Vector T) (v : T) :
    (insert fresh a (size a) v).result = .ok () ∧
    (insert fresh a (size a) v).state = push_back fresh a v ∧
    size (insert fresh a (size a) v).state = size (push_back fresh a v) ∧
    capacity (insert fresh a (size a) v).state = capacity (push_back fresh a v) ∧
    (∀ j, get (insert fresh a (size a) v).state j = get (push_back fresh a v) j) := by
  unfold size
  rw [insert_at_size]
  exact ⟨rfl, rfl, rfl, rfl, fun _ => rfl⟩

/-! ## reset and the capacity -/

/-- Slots of the object after `reset(T)`. -/
theorem reset_vector (a : Vector T) (x : T) (j : Nat) :
    (reset a x)._vector j = if j < a.visibleSize then x else a._vector j := by
  simp [reset, resetLoop_apply]

/-- A second `reset(T)` with the same value changes nothing. -/
theorem reset_reset (a : Vector T) (x : T) : reset (reset a x) x = reset a x := by
  have hv : (reset (reset a x) x)._vector = (reset a x)._vector := by
    funext j
    rw [reset_vector, reset_vector]
    by_cases hj : j < a.visibleSize
    · have hj2 : j < (reset a x).visibleSize := hj
      rw [if_pos hj2, if_pos hj]
    · have hj2 : ¬ j < (reset a x).visibleSize := hj
      rw [if_neg hj2, if_neg hj]
  show ({ reset a x with _vector := (reset (reset a x) x)._vector } : Vector T) = reset a x
  rw [hv]

/-- Claim C15: `reset()` sets every element at an index below `size()` to the
default value of `T` and leaves the size and the capacity unchanged (and the
slots beyond the size as they were); calling it twice in a row gives exactly
the state one call gives. -/
theorem reset_defaults_idempotent [Inhabited T] (a : Vector T) :
    (∀ j, j < size a → get (reset0 a) j = default) ∧
    size (reset0 a) = size a ∧
    capacity (reset0 a) = capacity a ∧
    (∀ j, size a ≤ j → get (reset0 a) j = get a j) ∧
    reset0 (reset0 a) = reset0 a := by
  refine ⟨fun j hj => ?_, rfl, rfl, fun j hj => ?_, reset_reset a default⟩
  · unfold size at hj
    simp only [get, reset0, reset_vector, if_pos hj]
  · unfold size at hj
    have hc : ¬ j < a.visibleSize := by omega
    simp only [get, reset0, reset_vector, if_neg hc]

/-- Instance of C15 on `[1, 2]` with stale slots. -/
theorem reset_defaults_idempotent_witness :
    get (reset0 exSpare) 1 = 0 ∧ get (reset0 exSpare) 2 = 99 ∧
    size (reset0 exSpare) = 2 ∧ capacity (reset0 exSpare) = 4 ∧
    reset0 (reset0 exSpare) = reset0 exSpare :=
  ⟨by decide, by decide, by decide, by decide, (reset_defaults_idempotent exSpare).2.2.2.2⟩

/-- Capacity after `erase`, for an object whose size does not exceed its
capacity: unchanged, whether the call throws or not. -/
theorem erase_state_size [Inhabited T] (fresh : Nat → T) (a : Vector T) (i : Nat)
    (hinv : a.visibleSize ≤ a._size) : (erase fresh a i).state._size = a._size := by
  by_cases hi : i < a.visibleSize
  · exact (erase_below_size fresh a i hinv hi).2.2.1
  · have h1 : i ≥ a.visibleSize := by omega
    unfold erase
    rw [if_pos h1]

/-- Copy assignment never makes the capacity smaller. -/
theorem operatorAssign_size_mono [Inhabited T] [BEq T] (fresh : Nat → T) (a b : Vector T) :
    a._size ≤ (operatorAssign fresh a b).object._size := by
  cases hba : operatorEq b a with
  | true =>
    rw [operatorAssign_of_eq fresh a b hba]
  | false =>
    rw [(operatorAssign_of_ne fresh a b hba).2.2]
    split
    · have := init_size_ge fresh b.visibleSize (default : T)
      omega
    · exact le_refl _

/-- The self assignment never makes the capacity smaller. -/
theorem operatorAssignSelf_size_mono [Inhabited T] [BEq T] (fresh : Nat → T) (a : Vector T) :
    a._size ≤ (operatorAssignSelf fresh a)._size := by
  unfold operatorAssignSelf
  split
  · by_cases hgt : a.visibleSize > a._size
    · have hge := init_size_ge fresh a.visibleSize (default : T)
      simp only [if_pos hgt, copy, init1]
      omega
    · simp only [if_neg hgt, copy, reset0, reset]
      exact le_refl _
  · exact le_refl _

/-- Claim C17: the capacity never shrinks: `erase`, `clear` and `reset` leave it
unchanged (`clear` sets the size to 0 and leaves every slot untouched), and
`push_back`, `insert` and copy assignment (from another array, or from the
array itself) never make it smaller.  The array is one whose size does not
exceed its capacity. -/
theorem capacity_never_shrinks [Inhabited T] [BEq T] (fresh : Nat → T) (a b : Vector T)
    (i : Nat) (v : T) (hinv : size a ≤ capacity a) :
    capacity (erase fresh a i).state = capacity a ∧
    capacity (clear a) = capacity a ∧
    size (clear a) = 0 ∧
    (clear a)._vector = a._vector ∧
    capacity (reset0 a) = capacity a ∧
    capacity a ≤ capacity (push_back fresh a v) ∧
    capacity a ≤ capacity (insert fresh a i v).state ∧
    capacity a ≤ capacity (operatorAssign fresh a b).object ∧
    capacity a ≤ capacity (operatorAssignSelf fresh a) := by
  refine ⟨erase_state_size fresh a i hinv, rfl, rfl, rfl, rfl,
    resize_size_mono fresh a (a.visibleSize + 1), ?_, operatorAssign_size_mono fresh a b,
    operatorAssignSelf_size_mono fresh a⟩
  simp only [capacity]
  rw [insert_state_size]
  split
  · exact resize_size_mono fresh a (a.visibleSize + 1)
  · exact le_refl _

/-- Witness of C17 on the full `[1, 2, 3, 4]`: `erase` keeps capacity 4,
`push_back` and `insert` raise it to 8, and assigning `[1, 2]` keeps it. -/
theorem capacity_never_shrinks_witness :
    size exFull ≤ capacity exFull ∧
    capacity (erase exFresh exFull 1).state = capacity exFull ∧
    capacity (clear exFull) = capacity exFull ∧
    capacity exFull ≤ capacity (push_back exFresh exFull 9) ∧
    capacity (push_back exFresh exFull 9) = 8 ∧
    capacity exFull ≤ capacity (insert exFresh exFull 1 9).state ∧
    capacity exFull ≤ capacity (operatorAssign exFresh exFull exSpare).object ∧
    capacity (operatorAssign exFresh exFull exSpare).object = 4 :=
  have h := capacity_never_shrinks exFresh exFull exSpare 1 9 (by decide)
  ⟨by decide, h.1, h.2.1, h.2.2.2.2.2.1, by decide, h.2.2.2.2.2.2.1, h.2.2.2.2.2.2.2.1,
    by decide⟩

/-! ## The invariant of the reachable states -/

/-- The invariant reads the size and the capacity only. -/
theorem Inv.of_members {a b : Vector T} (h : Inv a) (hs : b._size = a._size)
    (hv : b.visibleSize ≤ a.visibleSize) : Inv b := by
  unfold Inv at *
  rw [hs]
  exact ⟨by omega, h.2⟩

theorem inv_init (fresh : Nat → T) (n : Nat) (x : T) : Inv (init fresh n x) := by
  refine ⟨init_size_ge fresh n x, ?_⟩
  rcases init_capacity fresh n x with ⟨_, h0⟩ | ⟨_, hp, _⟩
  · exact Or.inl h0
  · exact Or.inr hp

theorem inv_resize [Inhabited T] (fresh : Nat → T) (a : Vector T) (sz : Nat) (h : Inv a) :
    Inv (resize fresh a sz) := by
  refine ⟨?_, ?_⟩
  · rw [resize_visibleSize]
    exact resize_size_ge fresh a sz
  · rw [resize_size]
    split
    · exact (inv_init fresh sz default).2
    · exact h.2

theorem inv_push_back [Inhabited T] (fresh : Nat → T) (a : Vector T) (v : T) (h : Inv a) :
    Inv (push_back fresh a v) :=
  (inv_resize fresh a (a.visibleSize + 1) h).of_members rfl (le_refl _)

theorem inv_insert [Inhabited T] (fresh : Nat → T) (a : Vector T) (i : Nat) (v : T)
    (h : Inv a) : Inv (insert fresh a i v).state := by
  unfold insert
  split
  · exact h
  · split
    · exact inv_push_back fresh a v h
    · exact (inv_resize fresh a (a.visibleSize + 1) h).of_members rfl (le_refl _)

theorem inv_erase [Inhabited T] (fresh : Nat → T) (a : Vector T) (i : Nat) (h : Inv a) :
    Inv (erase fresh a i).state := by
  by_cases hi : i < a.visibleSize
  · obtain ⟨_, e2, e3, _⟩ := erase_below_size fresh a i h.1 hi
    exact h.of_members e3 (by omega)
  · have h1 : i ≥ a.visibleSize := by omega
    unfold erase
    rw [if_pos h1]
    exact h

theorem inv_ctorList [Inhabited T] (fresh : Nat → T) (ilist : List T) :
    Inv (ctorList fresh ilist) :=
  (inv_init fresh ilist.length default).of_members rfl (le_refl _)

theorem inv_ctorCopy [Inhabited T] (fresh : Nat → T) (src : Vector T) :
    Inv (ctorCopy fresh src).object :=
  (inv_init fresh src.visibleSize default).of_members rfl (le_refl _)

theorem inv_operatorAssign [Inhabited T] [BEq T] (fresh : Nat → T) (a b : Vector T)
    (h : Inv a) : Inv (operatorAssign fresh a b).object := by
  cases hba : operatorEq b a with
  | true =>
    rw [operatorAssign_of_eq fresh a b hba]
    exact h
  | false =>
    obtain ⟨h1, _, h3⟩ := operatorAssign_of_ne fresh a b hba
    by_cases hgt : b.visibleSize > a._size
    · rw [if_pos hgt] at h3
      exact (inv_init fresh b.visibleSize default).of_members h3 (by rw [h1]; exact le_refl _)
    · rw [if_neg hgt] at h3
      unfold Inv
      rw [h1, h3]
      exact ⟨by omega, h.2⟩

theorem inv_operatorAssignSelf [Inhabited T] [BEq T] (fresh : Nat → T) (a : Vector T)
    (h : Inv a) : Inv (operatorAssignSelf fresh a) := by
  unfold operatorAssignSelf
  split
  · split
    · exact (inv_init fresh a.visibleSize default).of_members rfl (le_refl _)
    · exact h.of_members rfl (le_refl _)
  · exact h

theorem inv_ctorMove [Inhabited T] [BEq T] (fresh : Nat → T) (src : Vector T) (h : Inv src) :
    Inv (ctorMove fresh src).object ∧ Inv (ctorMove fresh src).argument := by
  by_cases hz : src.visibleSize = 0
  · obtain ⟨h1, h2⟩ := ctorMove_of_zero fresh src hz
    rw [h1, h2]
    exact ⟨inv_init fresh 0 default, h⟩
  · obtain ⟨h1, h2⟩ := ctorMove_of_pos fresh src (by omega)
    rw [h1, h2]
    exact ⟨h, inv_init fresh 0 default⟩

theorem inv_operatorMoveAssign [Inhabited T] (fresh : Nat → T) (p q : Nat) (a b : Vector T)
    (ha : Inv a) (hb : Inv b) :
    Inv (operatorMoveAssign fresh p q a b).object ∧
    Inv (operatorMoveAssign fresh p q a b).argument := by
  by_cases hne : q ≠ p
  · obtain ⟨h1, h2⟩ := operatorMoveAssign_of_ne fresh p q a b hne
    rw [h1, h2]
    exact ⟨hb, inv_init fresh 0 default⟩
  · unfold operatorMoveAssign
    rw [if_neg hne]
    exact ⟨ha, hb⟩

/-- Every reachable state satisfies the invariant. -/
theorem reachable_inv [Inhabited T] [BEq T] (a : Vector T) (h : Reachable a) : Inv a := by
  induction h with
  | ctorDefault fresh => exact inv_init fresh 0 default
  | ctorSize fresh n => exact inv_init fresh n default
  | ctorFill fresh n v => exact inv_init fresh n v
  | ctorList fresh ilist => exact inv_ctorList fresh ilist
  | ctorCopy fresh src _ _ => exact inv_ctorCopy fresh src
  | ctorMove fresh src _ ih => exact (inv_ctorMove fresh src ih).1
  | ctorMoveSource fresh src _ ih => exact (inv_ctorMove fresh src ih).2
  | push_back fresh a v _ ih => exact inv_push_back fresh a v ih
  | insert fresh a i v _ ih => exact inv_insert fresh a i v ih
  | erase fresh a i _ ih => exact inv_erase fresh a i ih
  | clear a _ ih => exact ih.of_members rfl (Nat.zero_le _)
  | reset a _ ih => exact ih.of_members rfl (le_refl _)
  | assign fresh a b _ _ iha _ => exact inv_operatorAssign fresh a b iha
  | assignSelf fresh a _ ih => exact inv_operatorAssignSelf fresh a ih
  | moveAssign fresh p q a b _ _ iha ihb => exact (inv_operatorMoveAssign fresh p q a b iha ihb).1
  | moveAssignSource fresh p q a b _ _ iha ihb =>
    exact (inv_operatorMoveAssign fresh p q a b iha ihb).2

/-- What the constructors `Vector(size_t)` and `Vector(size_t, T)` return on a
64-bit `size_t`, when they return, is a reachable state. -/
theorem reachable_ctor64 [Inhabited T] [BEq T] (fuel : Nat) (fresh : Nat → T) (n : Nat)
    (v : T) (a : Vector T) :
    (ctorFill64 fuel fresh n v = some a → Reachable a) ∧
    (ctorSize64 fuel fresh n = some a → Reachable a) := by
  refine ⟨fun h => ?_, fun h => ?_⟩
  · rw [(init64_some fuel fresh n v a h).2]
    exact Reachable.ctorFill fresh n v
  · rw [(init64_some fuel fresh n default a h).2]
    exact Reachable.ctorSize fresh n

/-- Claim C16: in every state reachable from a constructor by `push_back`,
`insert`, `erase`, `clear`, `reset`, copy assignment and move assignment, the
size is at most the capacity and the capacity is 0 or a power of two; so
capacity 0 implies size 0. -/
theorem reachable_size_le_capacity_power_of_two [Inhabited T] [BEq T] (a : Vector T)
    (h : Reachable a) :
    size a ≤ capacity a ∧
    (capacity a = 0 ∨ ∃ k, capacity a = 2 ^ k) ∧
    (capacity a = 0 → size a = 0) := by
  obtain ⟨h1, h2⟩ := reachable_inv a h
  refine ⟨h1, h2, fun h0 => ?_⟩
  simp only [size, capacity] at *
  omega

/-- Witness of C16: the state after `Vector v(3); v.push_back(9); v.erase(0);
v.clear(); v.push_back(7)` is reachable; its size is 1 and its capacity 4. -/
theorem reachable_size_le_capacity_power_of_two_witness :
    size (push_back exFresh
      (clear (erase exFresh (push_back exFresh (ctorSize exFresh 3) 9) 0).state) 7) ≤
    capacity (push_back exFresh
      (clear (erase exFresh (push_back exFresh (ctorSize exFresh 3) 9) 0).state) 7) ∧
    capacity (push_back exFresh
      (clear (erase exFresh (push_back exFresh (ctorSize exFresh 3) 9) 0).state) 7) = 4 :=
  ⟨(reachable_size_le_capacity_power_of_two _
      (Reachable.push_back exFresh _ 7 (Reachable.clear _ (Reachable.erase exFresh _ 0
        (Reachable.push_back exFresh _ 9 (Reachable.ctorSize exFresh 3)))))).1,
    by decide⟩

/-! ## Growth of the capacity under push_back -/

/-- The smallest power of two above a power of two is its double. -/
theorem smallestPowerOfTwoGe_succ_pow (c k : Nat) (h : SmallestPowerOfTwoGe c (2 ^ k + 1)) :
    c = 2 * 2 ^ k := by
  obtain ⟨⟨k', hk'⟩, hle, hmin⟩ := h
  have hup : c ≤ 2 ^ (k + 1) := hmin (k + 1) (by rw [pow_succ]; have := Nat.two_pow_pos k; omega)
  have hlt : 2 ^ k < 2 ^ k' := by omega
  have hkk : k < k' := (Nat.pow_lt_pow_iff_right (by decide)).mp hlt
  have hlow : 2 ^ (k + 1) ≤ 2 ^ k' := Nat.pow_le_pow_right (by decide) hkk
  rw [pow_succ] at hup hlow
  omega

/-- Capacity after `push_back`: unchanged while there is a spare slot, and the
capacity `init` computes for one more element when the block is full. -/
theorem push_back_size_cases [Inhabited T] (fresh : Nat → T) (a : Vector T) (v : T) :
    (a.visibleSize < a._size → (push_back fresh a v)._size = a._size) ∧
    (a.visibleSize = a._size →
      (push_back fresh a v)._size = (init fresh (a.visibleSize + 1) (default : T))._size) := by
  rw [push_back_size, resize_size]
  refine ⟨fun h => ?_, fun h => ?_⟩
  · rw [if_neg (by omega)]
  · rw [if_pos (by omega)]
    rfl

/-- Capacity after `push_back` on a full block that satisfies the invariant: 1
after 0, otherwise the double. -/
theorem push_back_size_full [Inhabited T] (fresh : Nat → T) (a : Vector T) (v : T)
    (hinv : Inv a) (hfull : a.visibleSize = a._size) :
    (push_back fresh a v)._size = if a._size = 0 then 1 else 2 * a._size := by
  rw [(push_back_size_cases fresh a v).2 hfull]
  rcases init_capacity fresh (a.visibleSize + 1) (default : T) with ⟨h0, _⟩ | ⟨_, hp⟩
  · omega
  · generalize (init fresh (a.visibleSize + 1) (default : T))._size = c at hp ⊢
    rcases hinv.2 with hz | ⟨k, hk⟩
    · rw [if_pos hz]
      rw [hfull, hz] at hp
      obtain ⟨_, hle, hmin⟩ := hp
      have := hmin 0 (by decide)
      omega
    · have hpos := Nat.two_pow_pos k
      rw [if_neg (by omega)]
      rw [hfull, hk] at hp
      rw [hk]
      exact smallestPowerOfTwoGe_succ_pow _ k hp

/-- Size and capacity after `n` calls of `push_back` on a default-constructed
array. -/
theorem push_backs_members [Inhabited T] (fresh : Nat → T) (values : Nat → T) (n : Nat) :
    (push_backs fresh values n).visibleSize = n ∧
    (push_backs fresh values n).visibleSize ≤ (push_backs fresh values n)._size ∧
    ((n = 0 ∧ (push_backs fresh values n)._size = 0) ∨
      (0 < n ∧ SmallestPowerOfTwoGe (push_backs fresh values n)._size n)) := by
  induction n with
  | zero => exact ⟨rfl, le_refl _, Or.inl ⟨rfl, rfl⟩⟩
  | succ n ih =>
    obtain ⟨hv, hle, hcap⟩ := ih
    have hv' : (push_backs fresh values (n + 1)).visibleSize = n + 1 := by
      show (push_back fresh (push_backs fresh values n) (values n)).visibleSize = n + 1
      rw [(push_back_effect fresh _ _).1, hv]
    have hge : (push_backs fresh values (n + 1)).visibleSize ≤
        (push_backs fresh values (n + 1))._size := by
      show (resize fresh (push_backs fresh values n) _).visibleSize ≤
        (resize fresh (push_backs fresh values n) _)._size
      rw [resize_visibleSize]
      exact resize_size_ge fresh _ _
    refine ⟨hv', hge, Or.inr ⟨Nat.succ_pos n, ?_⟩⟩
    obtain ⟨c1, c2⟩ := push_back_size_cases fresh (push_backs fresh values n) (values n)
    show SmallestPowerOfTwoGe (push_back fresh (push_backs fresh values n) (values n))._size _
    by_cases hlt : (push_backs fresh values n).visibleSize < (push_backs fresh values n)._size
    · rw [c1 hlt]
      rcases hcap with ⟨h0, hz⟩ | ⟨_, hp, hle2, hmin⟩
      · omega
      · exact ⟨hp, by omega, fun m hm => hmin m (by omega)⟩
    · rw [c2 (by omega), hv]
      rcases init_capacity fresh (n + 1) (default : T) with ⟨h0, _⟩ | ⟨_, hp⟩
      · omega
      · exact hp

/-- Claim C19: in every reachable state `push_back(v)` changes the capacity only
when `size() == capacity()` before the call, and then the new capacity is
exactly twice the old one, or 1 when the old one was 0; so `n` successive
calls on a default-constructed array give the smallest power of two that is at
least `n` (0 for no call), and three calls give capacity 4. -/
theorem push_back_grows_by_doubling [Inhabited T] [BEq T] (fresh : Nat → T) (a : Vector T)
    (v : T) (values : Nat → T) (n : Nat) (h : Reachable a) :
    (capacity (push_back fresh a v) ≠ capacity a → size a = capacity a) ∧
    (size a = capacity a →
      capacity (push_back fresh a v) = if capacity a = 0 then 1 else 2 * capacity a) ∧
    size (push_backs fresh values n) = n ∧
    ((n = 0 ∧ capacity (push_backs fresh values n) = 0) ∨
      (0 < n ∧ SmallestPowerOfTwoGe (capacity (push_backs fresh values n)) n)) ∧
    capacity (push_backs fresh values 3) = 4 := by
  have hinv := reachable_inv a h
  obtain ⟨c1, _⟩ := push_back_size_cases fresh a v
  obtain ⟨p1, _, p3⟩ := push_backs_members fresh values n
  refine ⟨fun hne => ?_, fun hfull => push_back_size_full fresh a v hinv hfull, p1, p3, rfl⟩
  simp only [size, capacity] at *
  by_contra hc
  exact hne (c1 (by have := hinv.1; omega))

/-- Witness of C19: the array after three calls of `push_back` is full at
size 4 after a fourth; the fifth call doubles the capacity from 4 to 8. -/
theorem push_back_grows_by_doubling_witness :
    size (push_backs exFresh (fun k => k) 4) = capacity (push_backs exFresh (fun k => k) 4) ∧
    capacity (push_back exFresh (push_backs exFresh (fun k => k) 4) 9) =
      (if capacity (push_backs exFresh (fun k => k) 4) = 0 then 1
        else 2 * capacity (push_backs exFresh (fun k => k) 4)) ∧
    capacity (push_back exFresh (push_backs exFresh (fun k => k) 4) 9) = 8 ∧
    capacity (push_backs exFresh (fun k => k) 3) = 4 :=
  have hr : Reachable (push_backs exFresh (fun k => k) 4) :=
    Reachable.push_back _ _ _ (Reachable.push_back _ _ _ (Reachable.push_back _ _ _
      (Reachable.push_back _ _ _ (Reachable.ctorDefault exFresh))))
  have h := push_back_grows_by_doubling exFresh (push_backs exFresh (fun k => k) 4) 9
    (fun k => k) 3 hr
  ⟨by decide, h.2.1 (by decide), by decide, h.2.2.2.2⟩

/-! ## Iterator arithmetic -/

/-- Claim C20: offset arithmetic on an iterator (or const_iterator) mutates its
receiver: for `it` at position `p` and every offset `k`, `it + k` returns an
iterator at `p + k` and leaves `it` itself at `p + k`; likewise `it - k`
returns and leaves `p - k`.  The distance between the iterator returned and
`it` after the call is therefore 0, while the distance to the position `it`
had before is `k`. -/
theorem iterator_offset_mutates_receiver (it : iterator) (k : Nat) :
    (it.add k).1 = ⟨it._ptr + (k : Int)⟩ ∧
    (it.add k).2 = ⟨it._ptr + (k : Int)⟩ ∧
    (it.sub k).1 = ⟨it._ptr - (k : Int)⟩ ∧
    (it.sub k).2 = ⟨it._ptr - (k : Int)⟩ ∧
    (it.add k).1.distance (it.add k).2 = 0 ∧
    (it.sub k).1.distance (it.sub k).2 = 0 ∧
    (it.add k).1.distance it = (k : Int) ∧
    it.distance (it.sub k).1 = (k : Int) := by
  refine ⟨rfl, rfl, rfl, rfl, ?_, ?_, ?_, ?_⟩ <;>
    simp only [iterator.add, iterator.sub, iterator.distance] <;> omega

/-- Instance of C20: from position 3, `it + 2` returns position 5 and leaves `it`
at 5; `it - 5` returns position -2 and leaves `it` there. -/
theorem iterator_offset_mutates_receiver_witness :
    ((⟨3⟩ : iterator).add 2).1 = ⟨5⟩ ∧ ((⟨3⟩ : iterator).add 2).2 = ⟨5⟩ ∧
    ((⟨3⟩ : iterator).sub 5).2 = ⟨-2⟩ ∧
    ((⟨3⟩ : iterator).add 2).1.distance ((⟨3⟩ : iterator).add 2).2 = 0 :=
  have h := iterator_offset_mutates_receiver ⟨3⟩ 2
  ⟨h.1, h.2.1, by decide, h.2.2.2.2.1⟩

end TemplateVector
